import Mathlib

/-!
Verification of the wiki-engine backend: a shallow embedding of the
pattern-based principle classifier (`analyzer.rs`), the knowledge-base
concept decomposer (`semantic_analyzer.rs`), the recursive analysis
engine (`lib.rs`) and the TTL/capacity-bounded cache (`cache.rs`),
together with theorems settling the specification's claims.

Modelling conventions:
- Rust `f32` scores and confidences are modelled as exact rationals `ℚ`;
  every constant in the source (0.2, 0.15, …) is an exact decimal.
- Rust `HashSet<String>` is modelled as `Finset String`; `HashMap`
  iteration order, which Rust leaves unspecified, is modelled by an
  explicit order parameter where it is observable.
- Machine integers (`u8`/`u64`/`usize`) are modelled as `Nat`; no
  arithmetic in the modelled code can overflow at the values involved.
- The regex patterns in the source are alternations of literal words
  (with `\s+` gaps and `.` wildcards); they are embedded as explicit
  alternation lists over a small pattern-character type, with the
  regex crate's leftmost-first, non-overlapping `find_iter` semantics.
- `uuid`-generated `id` fields are process-unique opaque strings never
  inspected by the code under verification; the field is omitted.
-/

namespace WikiEngine

/-! ### String helpers (modelling Rust `str` operations over `List Char`) -/

/-- Lowercase a string character-wise (Rust `str::to_lowercase` on ASCII). -/
def lowerStr (s : String) : String :=
  String.mk (s.data.map Char.toLower)

/-- UTF-8 byte length (Rust `str::len`). -/
def byteLen (s : String) : Nat :=
  s.data.foldl (fun n c => n + c.utf8Size) 0

/-- Split on runs of whitespace, dropping empty pieces
(Rust `str::split_whitespace`). -/
def splitWsChars : List Char → List Char → List String
  | [], acc => if acc.isEmpty then [] else [String.mk acc.reverse]
  | c :: rest, acc =>
    if c.isWhitespace then
      if acc.isEmpty then splitWsChars rest [] else String.mk acc.reverse :: splitWsChars rest []
    else
      splitWsChars rest (c :: acc)

/-- Whitespace-separated words of a string. -/
def splitWs (s : String) : List String :=
  splitWsChars s.data []

/-- Is `p` a prefix of `l`? -/
def isPrefixOfL : List Char → List Char → Bool
  | [], _ => true
  | _ :: _, [] => false
  | p :: ps, x :: xs => p = x && isPrefixOfL ps xs

/-- Split on every non-overlapping occurrence of separator `sep`
(Rust `str::split(sep)`): fuel-indexed scanner, fuel bounds the number
of consumed characters. -/
def splitOnSepAux (sep : List Char) : Nat → List Char → List Char → List String
  | _, [], acc => [String.mk acc.reverse]
  | 0, rest, acc => [String.mk (acc.reverse ++ rest)]
  | fuel + 1, c :: rest, acc =>
    if isPrefixOfL sep (c :: rest) then
      String.mk acc.reverse :: splitOnSepAux sep fuel ((c :: rest).drop sep.length) []
    else
      splitOnSepAux sep fuel rest (c :: acc)

/-- Rust `str::split` with a nonempty literal separator. -/
def splitOnSep (sep : String) (s : String) : List String :=
  splitOnSepAux sep.data (s.data.length + 1) s.data []

/-- Trim leading and trailing whitespace (Rust `str::trim`). -/
def trimStr (s : String) : String :=
  String.mk (((s.data.dropWhile Char.isWhitespace).reverse.dropWhile Char.isWhitespace).reverse)

/-- Strip all trailing characters drawn from `cs`
(Rust `str::trim_end_matches(&['.', ',', ';', ':'])`). -/
def trimEndMatches (cs : List Char) (s : String) : String :=
  String.mk ((s.data.reverse.dropWhile (fun c => cs.contains c)).reverse)

/-- Capitalize the first character of every whitespace-separated word
(`SemanticAnalyzer::capitalize_words`). -/
def capitalizeWords (s : String) : String :=
  String.intercalate (String.mk [' ']) ((splitWs s).map (fun w =>
    match w.data with
    | [] => w
    | c :: rest => String.mk (c.toUpper :: rest)))

/-- Executable minimum on `ℚ` (Rust `f32::min`); written out so that
concrete values kernel-reduce. -/
def ratMin (a b : ℚ) : ℚ := if a ≤ b then a else b

/-- Executable maximum on `ℚ`. -/
def ratMax (a b : ℚ) : ℚ := if a ≤ b then b else a

/-! ### Core data model (`types.rs`) -/

/-- Model of `PrincipleCategory`: closed enumeration plus open `Other` variant. -/
inductive Category where
  | Structural
  | Mechanical
  | Electrical
  | Thermal
  | Chemical
  | Material
  | System
  | Process
  | Design
  | Other (label : String)
  deriving DecidableEq, Repr, Inhabited

/-- Model of `EngineeringPrinciple` (the `uuid` id field is omitted: it is an
opaque process-unique string never inspected by the modelled code). -/
structure EngineeringPrinciple where
  title : String
  description : String
  category : Category
  confidence : ℚ
  source_url : String
  related_terms : List String
  deriving DecidableEq, Repr, Inhabited

/-- Model of `WikipediaPage`. -/
structure WikipediaPage where
  title : String
  extract : String
  url : String
  page_id : Nat
  deriving DecidableEq, Repr, Inhabited

/-! ### Regex pattern embedding

Each source regex is an alternation of word-like literals; `\s+` gaps
become `ws`, the two `.` wildcards (`stefan.boltzmann`, `trade.off`)
become `any`.  Matching follows the regex crate's leftmost-first
semantics: scan positions left to right, at each position try the
alternatives in order, on a match consume it and continue after it. -/

inductive PatChar where
  | lit (c : Char)
  | ws
  | any
  deriving DecidableEq, Repr

/-- Compile a pattern literal: a space stands for `\s+`, a dot for `.`. -/
def compilePat (s : String) : List PatChar :=
  s.data.map (fun c => if c = ' ' then .ws else if c = '.' then .any else .lit c)

/-- Length of the longest run of leading whitespace. -/
def wsRun : List Char → Nat
  | [] => 0
  | c :: rest => if c.isWhitespace then wsRun rest + 1 else 0

/-- Match one compiled alternative at the head of `text`; returns the
number of characters consumed.  `\s+` is greedy; in every source
pattern it is followed by a letter, so greedy matching is exact. -/
def matchPat : List PatChar → List Char → Option Nat
  | [], _ => some 0
  | .lit _ :: _, [] => none
  | .lit c :: ps, x :: xs => if x = c then (matchPat ps xs).map (· + 1) else none
  | .any :: _, [] => none
  | .any :: ps, _ :: xs => (matchPat ps xs).map (· + 1)
  | .ws :: ps, xs =>
    let n := wsRun xs
    if n = 0 then none else (matchPat ps (xs.drop n)).map (· + n)

/-- First alternative (in order) matching at the head of `text`. -/
def firstAltMatch : List (List PatChar) → List Char → Option Nat
  | [], _ => none
  | a :: as, text =>
    match matchPat a text with
    | some n => some n
    | none => firstAltMatch as text

/-- Count non-overlapping matches of an alternation, scanning left to
right (regex `find_iter(..).count()`).  Fuel bounds the scan steps. -/
def scanCount (alts : List (List PatChar)) : Nat → List Char → Nat
  | 0, _ => 0
  | _ + 1, [] => 0
  | fuel + 1, c :: rest =>
    match firstAltMatch alts (c :: rest) with
    | some n => 1 + scanCount alts fuel ((c :: rest).drop (max n 1))
    | none => scanCount alts fuel rest

/-- Number of `find_iter` matches of the `(?i)(a|b|…)` regex given by the
alternative list `alts` in `text` (text is lowercased first, matching
the `(?i)` flag; alternatives are written lowercase). -/
def countPattern (alts : List String) (text : String) : Nat :=
  let tl := (lowerStr text).data
  scanCount (alts.map compilePat) (tl.length + 1) tl

/-- Total matches of a list of regexes (a pattern group). -/
def groupCount (group : List (List String)) (text : String) : Nat :=
  (group.map (fun alts => countPattern alts text)).sum

/-! ### The nine category pattern groups and auxiliary patterns
(`EngineeringAnalyzer::new`), written as alternation lists: a space in
an alternative stands for the source's `\s+`, a dot for the regex `.`;
all groups carry the `(?i)` flag in the source. -/

def structuralPatterns : List (List String) :=
  [["load", "stress", "strain", "tension", "compression", "shear", "moment", "deflection"],
   ["beam", "column", "truss", "frame", "foundation", "support"],
   ["buckling", "fatigue", "failure", "strength", "stiffness"],
   ["structural integrity", "bearing capacity", "factor of safety"]]

def mechanicalPatterns : List (List String) :=
  [["force", "torque", "power", "energy", "motion", "velocity", "acceleration"],
   ["gear", "lever", "pulley", "spring", "damper", "actuator"],
   ["friction", "lubrication", "wear", "vibration", "resonance"],
   ["mechanical advantage", "efficiency", "work", "momentum"]]

def electricalPatterns : List (List String) :=
  [["voltage", "current", "resistance", "capacitance", "inductance"],
   ["circuit", "conductor", "insulator", "semiconductor", "transistor"],
   ["electric field", "magnetic field", "electromagnetic"],
   ["ohm\x27s law", "kirchhoff", "maxwell", "faraday"]]

def thermalPatterns : List (List String) :=
  [["heat", "temperature", "thermal", "conduction", "convection", "radiation"],
   ["thermodynamic", "entropy", "enthalpy", "specific heat"],
   ["heat transfer", "thermal expansion", "insulation"],
   ["carnot", "stefan.boltzmann", "fourier"]]

def chemicalPatterns : List (List String) :=
  [["reaction", "catalyst", "equilibrium", "kinetics", "stoichiometry"],
   ["acid", "base", "oxidation", "reduction", "ph", "molarity"],
   ["chemical bond", "molecular", "atomic", "ionic"],
   ["mass transfer", "diffusion", "absorption", "distillation"]]

def materialPatterns : List (List String) :=
  [["crystal", "grain", "microstructure", "phase", "alloy"],
   ["elastic modulus", "yield strength", "hardness", "toughness"],
   ["composite", "polymer", "ceramic", "metal", "semiconductor"],
   ["corrosion", "oxidation", "creep", "fracture", "fatigue"]]

def systemPatterns : List (List String) :=
  [["feedback", "control", "regulation", "stability", "response"],
   ["input", "output", "transfer function", "block diagram"],
   ["system dynamics", "optimization", "performance", "reliability"],
   ["redundancy", "fault tolerance", "safety factor"]]

def processPatterns : List (List String) :=
  [["manufacturing", "production", "assembly", "quality control"],
   ["workflow", "procedure", "protocol", "standard", "specification"],
   ["efficiency", "throughput", "yield", "waste", "optimization"],
   ["automation", "robotics", "lean", "six sigma"]]

def designPatterns : List (List String) :=
  [["requirement", "specification", "constraint", "objective"],
   ["iteration", "prototype", "validation", "verification"],
   ["trade.off", "optimization", "design space", "parameter"],
   ["modularity", "scalability", "maintainability", "sustainability"]]

def principleExtractors : List (List String) :=
  [["principle", "law", "theorem", "rule", "equation", "formula"],
   ["based on", "according to", "governed by", "follows"],
   ["fundamental", "basic", "key", "essential", "critical", "important"],
   ["mechanism", "process", "phenomenon", "effect", "relationship"]]

def relatedTermExtractors : List (List String) :=
  [["related to", "associated with", "connected to", "linked to"],
   ["component", "part", "element", "subsystem", "module"],
   ["application", "use", "implementation", "example"],
   ["see also", "similar", "comparable", "analogous"]]

/-- The fixed scan order of `categorize_text`'s `categories` vector. -/
def categoryGroups : List (List (List String) × Category) :=
  [(structuralPatterns, .Structural),
   (mechanicalPatterns, .Mechanical),
   (electricalPatterns, .Electrical),
   (thermalPatterns, .Thermal),
   (chemicalPatterns, .Chemical),
   (materialPatterns, .Material),
   (systemPatterns, .System),
   (processPatterns, .Process),
   (designPatterns, .Design)]

/-- Pattern group of a non-`Other` category
(the `match category` table in `calculate_confidence`). -/
def patternsFor : Category → List (List String)
  | .Structural => structuralPatterns
  | .Mechanical => mechanicalPatterns
  | .Electrical => electricalPatterns
  | .Thermal => thermalPatterns
  | .Chemical => chemicalPatterns
  | .Material => materialPatterns
  | .System => systemPatterns
  | .Process => processPatterns
  | .Design => designPatterns
  | .Other _ => []

/-! ### `categorize_text` (`analyzer.rs:158-187`)

The source accumulates positive scores in a `HashMap` and takes
`max_by_key` over its iteration; `HashMap` iteration order is
unspecified (per-process random), so the categorizer is modelled as a
function of the entry sequence the iteration yields: any permutation of
the scored entries.  Rust's `Iterator::max_by_key` returns the **last**
maximal element of the iteration. -/

/-- The `(category, score)` entries inserted into the score map, in the
fixed scan order (only scores `> 0` are inserted). -/
def scoresList (text : String) : List (Category × Nat) :=
  categoryGroups.filterMap (fun p =>
    let s := groupCount p.1 text
    if 0 < s then some (p.2, s) else none)

/-- Rust `Iterator::max_by_key`: last element with maximal key. -/
def maxByKeyLast (l : List (Category × Nat)) : Option (Category × Nat) :=
  l.foldl (fun acc x =>
    match acc with
    | none => some x
    | some b => if b.2 ≤ x.2 then some x else some b) none

/-- Model of `categorize_text`, as a function of the score-map iteration
sequence `iter` (any permutation of `scoresList text`). -/
def categorizeTextWith (iter : List (Category × Nat)) : Category :=
  match maxByKeyLast iter with
  | some (c, _) => c
  | none => .Other ("General")

/-- One possible iteration order: the insertion order itself. -/
def canonOrd (text : String) : List (Category × Nat) :=
  scoresList text

/-- Modelled from the spec: the claimed tie-break — scan the nine groups
in fixed enumeration order keeping the first strictly-greater score
(so the first of any tied groups wins); `Other "General"` if no group
matches.  This is the specification's description, to be compared with
`categorizeTextWith`. -/
def specCategorizeText (text : String) : Category :=
  let best := categoryGroups.foldl (fun acc p =>
    let s := groupCount p.1 text
    match acc with
    | none => if 0 < s then some (p.2, s) else none
    | some b => if b.2 < s then some (p.2, s) else some b) none
  match best with
  | some (c, _) => c
  | none => .Other ("General")

/-! ### Related-term extraction (`analyzer.rs:189-219`)

`extract_related_terms` collects capitalized phrases / hyphenated pairs
and short windows after relation-indicator phrases into a `HashSet` and
keeps 5 of them; the `HashSet` iteration order is unspecified, modelled
here as discovery order with duplicates removed. -/

def isCommonWord (word : String) : Bool :=
  [("the" : String), "and", "that", "with", "for", "are", "can", "this", "will", "such",
   "may", "also", "been", "have", "has", "was", "were", "from", "they", "these",
   "more", "some", "other", "than", "only", "very", "when", "where", "what"].contains
    (lowerStr word)

/-- Word character for `\b` boundaries (`[A-Za-z0-9_]`). -/
def isWordChar (c : Char) : Bool :=
  c.isAlpha || c.isDigit || c = '_'

/-- Greedy parse of `[A-Z][a-z]+(?:\s+[A-Z][a-z]+)*\b` at the head of
the text (the boundary check also needs the preceding character).
Returns the consumed length. -/
def matchCapWord : List Char → Option Nat
  | c :: c' :: rest =>
    if c.isUpper && c'.isLower then
      let lowers := (c' :: rest).takeWhile Char.isLower
      some (1 + lowers.length)
    else none
  | _ => none

def matchCapPhraseTail (fuel : Nat) (l : List Char) : Nat :=
  match fuel with
  | 0 => 0
  | fuel + 1 =>
    let n := wsRun l
    if n = 0 then 0
    else match matchCapWord (l.drop n) with
      | some m => match matchCapPhraseTail fuel (l.drop (n + m)) with
        | 0 => n + m
        | k => n + m + k
      | none => 0

/-- Model of `\b[A-Z][a-z]+(?:\s+[A-Z][a-z]+)*\b` at the head of `l`, with
`prevIsWord` telling whether the preceding character is a word
character (for the leading boundary). -/
def matchCapPhrase (prevIsWord : Bool) (l : List Char) : Option Nat :=
  if prevIsWord then none
  else match matchCapWord l with
    | none => none
    | some m =>
      let total := m + matchCapPhraseTail l.length (l.drop m)
      match l.drop total with
      | [] => some total
      | c :: _ => if isWordChar c then none else some total

/-- Model of `[a-z]+-[a-z]+` at the head of `l`. -/
def matchHyphenPair (l : List Char) : Option Nat :=
  let a := l.takeWhile Char.isLower
  if a.isEmpty then none
  else match l.drop a.length with
    | '-' :: rest =>
      let b := rest.takeWhile Char.isLower
      if b.isEmpty then none else some (a.length + 1 + b.length)
    | _ => none

/-- All matches of the technical-term regex
`\b[A-Z][a-z]+(?:\s+[A-Z][a-z]+)*\b|[a-z]+-[a-z]+`, leftmost-first. -/
def techTermScan : Nat → Bool → List Char → List String
  | 0, _, _ => []
  | _ + 1, _, [] => []
  | fuel + 1, prevIsWord, c :: rest =>
    match matchCapPhrase prevIsWord (c :: rest) with
    | some n =>
      String.mk ((c :: rest).take n) :: techTermScan fuel false ((c :: rest).drop (max n 1))
    | none =>
      match matchHyphenPair (c :: rest) with
      | some n =>
        String.mk ((c :: rest).take n) :: techTermScan fuel false ((c :: rest).drop (max n 1))
      | none => techTermScan fuel (isWordChar c) rest

def techTerms (text : String) : List String :=
  techTermScan (text.data.length + 1) false text.data

/-- End positions (in characters) of the `find_iter` matches of an
alternation, leftmost-first. -/
def scanEnds (alts : List (List PatChar)) : Nat → Nat → List Char → List Nat
  | 0, _, _ => []
  | _ + 1, _, [] => []
  | fuel + 1, pos, c :: rest =>
    match firstAltMatch alts (c :: rest) with
    | some n => (pos + max n 1) :: scanEnds alts fuel (pos + max n 1) ((c :: rest).drop (max n 1))
    | none => scanEnds alts fuel (pos + 1) rest

/-- Insert into an order-preserving duplicate-free list (`HashSet::insert`
under discovery-order iteration). -/
def insertDedup (l : List String) (x : String) : List String :=
  if l.contains x then l else l ++ [x]

/-- Model of `extract_related_terms`: capitalized/hyphenated technical terms
longer than 3 bytes that are not common words, plus the up-to-3-word
window in the 50 characters after each relation-indicator match;
5 of the collected set are kept. -/
def extractRelatedTerms (text : String) : List String :=
  let fromTech := (techTerms text).filter (fun t => 3 < byteLen t && !isCommonWord t)
  let tl := (lowerStr text).data
  let fromPatterns := relatedTermExtractors.flatMap (fun alts =>
    (scanEnds (alts.map compilePat) (tl.length + 1) 0 tl).filterMap (fun e =>
      let window := (text.data.drop e).take 50
      let words := (splitWs (String.mk window)).take 3
      if words.isEmpty then none
      else
        let term := String.intercalate (String.mk [' ']) words
        if isCommonWord term then none else some term))
  ((fromTech ++ fromPatterns).foldl insertDedup []).take 5

/-! ### Confidence and principle extraction (`analyzer.rs:117-279`) -/

/-- The mathematical-notation regex `[=<>±∆∇∑∏∫]|\\[a-zA-Z]+` (applied
to the original, non-lowercased text). -/
def hasMathPattern (text : String) : Bool :=
  let rec go : List Char → Bool
    | [] => false
    | '\\' :: c :: rest => if c.isAlpha then true else go (c :: rest)
    | c :: rest =>
      if c = '=' || c = '<' || c = '>' || c = '±' || c = '∆' || c = '∇' ||
         c = '∑' || c = '∏' || c = '∫' then true
      else go rest
  go text.data

/-- Total principle-indicator matches of the four `principle_extractors`
regexes. -/
def principleMatchCount (text : String) : Nat :=
  groupCount principleExtractors text

/-- Model of `calculate_confidence` (`analyzer.rs:221-261`): base 0.2 per
principle-indicator match, early return 0.3 for `Other`, 0.15 per
winning-category pattern match, +0.1 length bonus (byte length strictly
between 50 and 300), +0.2 mathematical-notation bonus, capped at 1. -/
def calculateConfidence (text : String) (category : Category) : ℚ :=
  let confidence : ℚ := (principleMatchCount text : ℚ) * (2 / 10)
  match category with
  | .Other _ => 3 / 10
  | cat =>
    let confidence := confidence + (groupCount (patternsFor cat) text : ℚ) * (15 / 100)
    let confidence := if 50 < byteLen text ∧ byteLen text < 300 then confidence + 1 / 10 else confidence
    let confidence := if hasMathPattern text then confidence + 2 / 10 else confidence
    ratMin confidence 1

/-- Model of `extract_principle_title`: first 8 whitespace-separated words with
trailing `.,;:` stripped. -/
def extractPrincipleTitle (text : String) : String :=
  trimEndMatches ['.', ',', ';', ':'] (String.intercalate (String.mk [' ']) ((splitWs text).take 8))

/-- Model of `extract_principle_from_sentence` (`analyzer.rs:117-156`); `ord`
supplies the score-map iteration order used by `categorize_text` for a
given sentence. -/
def extractPrincipleFromSentence (ord : String → List (Category × Nat))
    (page : WikipediaPage) (sentence : String) : Option EngineeringPrinciple :=
  if principleMatchCount sentence = 0 then none
  else
    let category := categorizeTextWith (ord sentence)
    let related_terms := extractRelatedTerms sentence
    let confidence := calculateConfidence sentence category
    if confidence < 3 / 10 then none
    else some
      { title := extractPrincipleTitle sentence
        description := trimStr sentence
        category := category
        confidence := confidence
        source_url := page.url
        related_terms := related_terms }

/-! ### Deduplication, ranking and `analyze_page` (`analyzer.rs:100-315`) -/

/-- Stable insertion into a list sorted by `le` (ties keep earlier
elements first). -/
def insertBy (le : α → α → Bool) (x : α) : List α → List α
  | [] => [x]
  | y :: ys => if le y x then y :: insertBy le x ys else x :: y :: ys

/-- Stable sort by `le` (models Rust's stable `sort_by`; `le a b` reads
"`a` may stay before `b`", and ties preserve the input order). -/
def sortByStable (le : α → α → Bool) (l : List α) : List α :=
  l.foldl (fun acc x => insertBy le x acc) []

/-- Model of `similarity_score`: Jaccard similarity of the whitespace-token sets
(case-sensitive). -/
def similarityScore (text1 text2 : String) : ℚ :=
  let words1 := (splitWs text1).toFinset
  let words2 := (splitWs text2).toFinset
  let u := (words1 ∪ words2).card
  if u = 0 then 0 else ((words1 ∩ words2).card : ℚ) / (u : ℚ)

/-- Descending-confidence comparison used by both analyzers
(`b.confidence.partial_cmp(&a.confidence)`). -/
def confDesc (a b : EngineeringPrinciple) : Bool :=
  b.confidence ≤ a.confidence

/-- Model of `deduplicate_and_rank` (`analyzer.rs:281-301`): sort by confidence
descending (stable), greedily drop any principle whose description has
similarity `> 0.8` with an already-kept one, keep the top 10. -/
def deduplicateAndRank (principles : List EngineeringPrinciple) : List EngineeringPrinciple :=
  let sorted := sortByStable confDesc principles
  let unique := sorted.foldl (fun acc p =>
    if acc.any (fun existing => 8 / 10 < similarityScore p.description existing.description)
    then acc else acc ++ [p]) []
  unique.take 10

/-- Model of `analyze_page` (`analyzer.rs:100-115`): split the extract at `". "`,
extract a principle candidate from each sentence, deduplicate and rank. -/
def analyzePage (ord : String → List (Category × Nat)) (page : WikipediaPage) :
    List EngineeringPrinciple :=
  deduplicateAndRank (((splitOnSep (". ") page.extract)).filterMap
    (extractPrincipleFromSentence ord page))

/-! ### Semantic analyzer data model (`semantic_analyzer.rs:8-70`) -/

inductive RelationType where
  | PartOf
  | Requires
  | Controls
  | Connects
  | Supports
  | Converts
  deriving DecidableEq, Repr, Inhabited

structure ComponentRelation where
  component : String
  relation_type : RelationType
  confidence : ℚ
  deriving DecidableEq, Repr, Inhabited

structure FoundationalComponent where
  name : String
  category : Category
  description : String
  importance : ℚ
  sub_components : List String
  deriving DecidableEq, Repr, Inhabited

structure ConceptDecomposition where
  concept : String
  components : List FoundationalComponent
  relationships : List ComponentRelation
  confidence : ℚ
  deriving DecidableEq, Repr, Inhabited

/-! ### Knowledge base (`SemanticAnalyzer::build_knowledge_base`,
`semantic_analyzer.rs:129-213`); the `HashMap`s are modelled as
association lists keyed by their insertion order (lookup by key is
order-independent). -/

def conceptHierarchies : List (String × List String) :=
  [("uav", ["propulsion system", "flight controller", "power system",
            "communication system", "navigation system", "structural frame",
            "payload system"]),
   ("propulsion system", ["motor", "propeller", "electronic speed controller", "motor mount"]),
   ("power system", ["battery", "power distribution board", "voltage regulator",
                     "charging system"]),
   ("flight controller", ["microprocessor", "inertial measurement unit", "gyroscope",
                          "accelerometer", "barometer"]),
   ("engine", ["combustion chamber", "piston", "crankshaft", "valve system",
               "fuel injection system", "cooling system", "ignition system"]),
   ("bridge", ["foundation", "deck", "superstructure", "support cables",
               "anchoring system"])]

def componentRelationships : List (String × List ComponentRelation) :=
  [("uav",
    [{ component := "motor", relation_type := .PartOf, confidence := 95 / 100 },
     { component := "battery", relation_type := .Requires, confidence := 98 / 100 },
     { component := "propeller", relation_type := .PartOf, confidence := 90 / 100 },
     { component := "flight controller", relation_type := .Controls, confidence := 92 / 100 }])]

def categoryMappings : List (String × Category) :=
  [("motor", .Mechanical),
   ("battery", .Electrical),
   ("propeller", .Mechanical),
   ("flight controller", .System),
   ("frame", .Structural)]

def synonymsKB : List (String × List String) :=
  [("uav", ["drone", "unmanned aerial vehicle", "quadcopter"]),
   ("motor", ["engine", "actuator"]),
   ("battery", ["power source", "energy storage"])]

/-- Association-list lookup (`HashMap::get`). -/
def kbLookup (key : String) : List (String × α) → Option α
  | [] => none
  | (k, v) :: rest => if k = key then some v else kbLookup key rest

/-- Model of `normalize_concept` (`semantic_analyzer.rs:379-390`): lowercase, then
map a synonym to its canonical key.  The source iterates a `HashMap` in
unspecified order; the synonym groups are disjoint, so the first match
in insertion order is the unique match. -/
def normalizeConcept (concept : String) : String :=
  let conceptLower := lowerStr concept
  match synonymsKB.find? (fun p => p.1 = conceptLower || p.2.contains conceptLower) with
  | some p => p.1
  | none => conceptLower

/-- Model of `generate_component_description` (`semantic_analyzer.rs:439-449`). -/
def generateComponentDescription (component : String) (category : Category) : String :=
  match category with
  | .Mechanical => component ++ " is a mechanical component that provides movement, force transmission, or mechanical advantage"
  | .Electrical => component ++ " is an electrical component that manages power, control signals, or energy conversion"
  | .Structural => component ++ " is a structural component that provides support, stability, or load distribution"
  | .System => component ++ " is a system component that provides control, coordination, or integration functionality"
  | .Thermal => component ++ " is a thermal component that manages heat transfer, temperature control, or thermal regulation"
  | .Material => component ++ " is a material component that provides specific material properties or characteristics"
  | _ => component ++ " is an engineering component with specialized functionality"

def criticalComponents : List String :=
  ["motor", "battery", "controller", "processor", "engine", "frame"]

/-- Model of `calculate_component_importance` (`semantic_analyzer.rs:452-477`):
base 0.5, per matching relation a kind-dependent boost plus
`confidence × 0.2`, +0.2 for critical component names, capped at 1. -/
def calculateComponentImportance (component : String) (parentConcept : String) : ℚ :=
  let importance : ℚ := 5 / 10
  let importance :=
    match kbLookup parentConcept componentRelationships with
    | none => importance
    | some relationships =>
      relationships.foldl (fun imp relation =>
        if relation.component = component then
          let imp := imp +
            (match relation.relation_type with
             | .Requires => 3 / 10
             | .Controls => 25 / 100
             | .PartOf => 2 / 10
             | _ => 1 / 10)
          imp + relation.confidence * (2 / 10)
        else imp) importance
  let importance := if criticalComponents.contains component then importance + 2 / 10 else importance
  ratMin importance 1

/-- Descending-importance comparison
(`b.importance.partial_cmp(&a.importance)`). -/
def impDesc (a b : FoundationalComponent) : Bool :=
  b.importance ≤ a.importance

/-- Model of `extract_from_knowledge_base` (`semantic_analyzer.rs:393-428`). -/
def extractFromKnowledgeBase (concept : String) : Option (List FoundationalComponent) :=
  (kbLookup concept conceptHierarchies).map (fun subConcepts =>
    sortByStable impDesc (subConcepts.map (fun subConcept =>
      let category := (kbLookup subConcept categoryMappings).getD .System
      { name := subConcept
        category := category
        description := generateComponentDescription subConcept category
        importance := calculateComponentImportance subConcept concept
        sub_components := (kbLookup subConcept conceptHierarchies).getD [] })))

/-- Model of `extract_relationships` (`semantic_analyzer.rs:431-436`). -/
def extractRelationships (concept : String) : List ComponentRelation :=
  (kbLookup concept componentRelationships).getD []

/-! ### Text-extraction fallback (`semantic_analyzer.rs:216-300,487-548`)

Used only for concepts unknown to the knowledge base; the source feeds
it the fixed string returned by `fetch_concept_content`. -/

structure ComponentExtractor where
  patterns : List (List String)
  category : Category
  weight : ℚ

/-- Model of `build_component_extractors`: the five category-tagged battery of
`\b(word|…)\b` patterns (case-sensitive, run against lowercased text,
so the uppercase alternatives `ECU`/`GPS`/`IMU` never match — kept
verbatim). -/
def componentExtractors : List ComponentExtractor :=
  [{ patterns := [["motor", "engine", "gear", "bearing", "shaft", "piston", "turbine",
                   "pump", "compressor", "fan", "propeller"],
                  ["actuator", "servo", "stepper", "valve", "clutch", "brake",
                   "transmission", "coupling"]],
     category := .Mechanical, weight := 8 / 10 },
   { patterns := [["battery", "capacitor", "resistor", "transistor", "diode", "circuit",
                   "sensor", "microcontroller"],
                  ["power supply", "transformer", "inverter", "converter", "relay",
                   "switch", "connector"]],
     category := .Electrical, weight := 85 / 100 },
   { patterns := [["frame", "chassis", "beam", "column", "foundation", "support",
                   "bracket", "mount", "housing"],
                  ["panel", "plate", "shell", "casing", "structure", "framework",
                   "skeleton"]],
     category := .Structural, weight := 75 / 100 },
   { patterns := [["controller", "processor", "computer", "ECU", "flight controller",
                   "autopilot"],
                  ["sensor", "gyroscope", "accelerometer", "GPS", "IMU", "barometer",
                   "compass"]],
     category := .System, weight := 9 / 10 },
   { patterns := [["radiator", "heat sink", "cooling fan", "thermal pad", "heat exchanger"],
                  ["insulation", "thermal barrier", "coolant", "refrigeration"]],
     category := .Thermal, weight := 7 / 10 }]

/-- Scan for `\b(w1|w2|…)\b` matches (case-sensitive), returning the
captured words in order; `prevIsWord` carries the left boundary. -/
def wordAltScan (alts : List (List Char)) : Nat → Bool → List Char → List String
  | 0, _, _ => []
  | _ + 1, _, [] => []
  | fuel + 1, prevIsWord, c :: rest =>
    let l := c :: rest
    let m := if prevIsWord then none else
      alts.find? (fun a => isPrefixOfL a l &&
        (match l.drop a.length with
         | [] => true
         | c' :: _ => !isWordChar c'))
    match m with
    | some a => String.mk a :: wordAltScan alts fuel false (l.drop (max a.length 1))
    | none => wordAltScan alts fuel (isWordChar c) rest

def wordAltMatches (alts : List String) (textLower : List Char) : List String :=
  wordAltScan (alts.map (·.data)) (textLower.length + 1) false textLower

/-- The six relationship patterns (`build_relationship_patterns`),
with the middle phrases tokenized; `cap.get(2)` (the trailing `\w+`)
becomes the relation's component. -/
structure RelationshipPattern where
  verbs : List (List String)
  relation_type : RelationType
  confidence : ℚ
  lastToOrInto : Bool

def relationshipPatterns : List RelationshipPattern :=
  [{ verbs := [["is", "part", "of"], ["is", "component", "of"], ["is", "element", "of"],
               ["are", "part", "of"], ["are", "component", "of"], ["are", "element", "of"]],
     relation_type := .PartOf, confidence := 9 / 10, lastToOrInto := false },
   { verbs := [["requires"], ["needs"], ["depends", "on"]],
     relation_type := .Requires, confidence := 85 / 100, lastToOrInto := false },
   { verbs := [["controls"], ["manages"], ["regulates"]],
     relation_type := .Controls, confidence := 8 / 10, lastToOrInto := false },
   { verbs := [["connects", "to"], ["links", "to"], ["attached", "to"]],
     relation_type := .Connects, confidence := 75 / 100, lastToOrInto := false },
   { verbs := [["supports"], ["holds"], ["carries"]],
     relation_type := .Supports, confidence := 8 / 10, lastToOrInto := false },
   { verbs := [["converts"], ["transforms"], ["changes"]],
     relation_type := .Converts, confidence := 7 / 10, lastToOrInto := true }]

def allWordChars (s : String) : Bool :=
  !s.data.isEmpty && s.data.all isWordChar

/-- Matches of one relationship pattern over the whitespace tokens of
the (lowercased) text, returning the second capture.  The regex
`(\w+)\s+…\s+(\w+)` is modelled at token granularity; the only text the
source ever feeds these patterns is the fixed placeholder string, on
which both readings agree (no matches). -/
def relMatchesAt (p : RelationshipPattern) (tokens : List String) : List String :=
  match tokens with
  | [] => []
  | t0 :: rest =>
    let here : List String :=
      if allWordChars t0 then
        if p.lastToOrInto then
          match p.verbs.find? (fun v => v.isPrefixOf rest) with
          | some _ =>
            -- greedy `.*(?:into|to)\s+(\w+)`: the last into/to with a following word
            let idxs := (List.range rest.length).filter (fun i =>
              1 ≤ i && ((rest.get? i = some ("into") || rest.get? i = some ("to")) &&
                (rest.get? (i + 1)).elim false allWordChars))
            match idxs.getLast? with
            | some i => ((rest.get? (i + 1)).map (fun w => [w])).getD []
            | none => []
          | none => []
        else
          match p.verbs.find? (fun v => v.isPrefixOf rest) with
          | some v =>
            match rest.drop v.length with
            | w :: _ => if allWordChars w then [w] else []
            | [] => []
          | none => []
      else []
    here ++ relMatchesAt p rest

/-- Model of `fetch_concept_content` (`semantic_analyzer.rs:480-484`): always the
fixed placeholder string. -/
def fetchConceptContent (_concept : String) : String :=
  "Placeholder content for concept analysis"

/-- Model of `extract_components_from_text` (`semantic_analyzer.rs:487-548`). -/
def extractComponentsFromText (text : String) (_maxDepth : Nat) : ConceptDecomposition :=
  let textLower := lowerStr text
  let components := componentExtractors.foldl (fun comps extractor =>
    extractor.patterns.foldl (fun comps alts =>
      (wordAltMatches alts textLower.data).foldl (fun (comps : List FoundationalComponent) name =>
        if comps.any (fun c => c.name = name) then comps
        else comps ++ [{ name := name
                         category := extractor.category
                         description := generateComponentDescription name extractor.category
                         importance := extractor.weight * (8 / 10)
                         sub_components := [] }]) comps) comps) []
  let relationships := relationshipPatterns.flatMap (fun p =>
    (relMatchesAt p (splitWs textLower)).map (fun comp2 =>
      { component := comp2, relation_type := p.relation_type, confidence := p.confidence }))
  let components := (sortByStable impDesc components).take 10
  let confidence : ℚ :=
    if components.isEmpty then 0
    else (components.map (·.importance)).sum / (components.length : ℚ)
  { concept := "extracted_concept"
    components := components
    relationships := relationships
    confidence := confidence }

/-- Model of `decompose_concept` (`semantic_analyzer.rs:360-376`): knowledge-base
path with fixed confidence 0.95, else text extraction over the fetched
content (the fetch never fails in the source, so the function is
total). -/
def decomposeConcept (concept : String) (maxDepth : Nat) : ConceptDecomposition :=
  let normalizedConcept := normalizeConcept concept
  match extractFromKnowledgeBase normalizedConcept with
  | some components =>
    { concept := concept
      components := components
      relationships := extractRelationships normalizedConcept
      confidence := 95 / 100 }
  | none => extractComponentsFromText (fetchConceptContent concept) maxDepth

/-- Model of `generate_principle_title` (`semantic_analyzer.rs:600-609`). -/
def generatePrincipleTitle (component : String) (category : Category) : String :=
  match category with
  | .Mechanical => capitalizeWords component ++ " Mechanism"
  | .Electrical => capitalizeWords component ++ " Circuit Principle"
  | .Structural => capitalizeWords component ++ " Structural Design"
  | .System => capitalizeWords component ++ " System Integration"
  | .Thermal => capitalizeWords component ++ " Thermal Management"
  | _ => capitalizeWords component ++ " Engineering Principle"

/-- Model of `decomposition_to_principles` (`semantic_analyzer.rs:574-597`). -/
def decompositionToPrinciples (decomposition : ConceptDecomposition)
    (page : WikipediaPage) : List EngineeringPrinciple :=
  sortByStable confDesc (decomposition.components.map (fun component =>
    { title := generatePrincipleTitle component.name component.category
      description := component.description
      category := component.category
      confidence := component.importance
      source_url := page.url
      related_terms := component.sub_components }))

/-- Model of `analyze_page_semantically` (`semantic_analyzer.rs:626-643`):
decompose the lowercased page title at depth 2 (`decompose_concept`
never fails, so the error fallback branch is dead code). -/
def analyzePageSemantically (page : WikipediaPage) : List EngineeringPrinciple :=
  decompositionToPrinciples (decomposeConcept (lowerStr page.title) 2) page

/-! ### The engine's merge of the two analyzers (`lib.rs:203-292`) -/

/-- Model of `text_similarity` (`lib.rs:278-292`): Jaccard of lowercased
whitespace-token sets. -/
def textSimilarity (text1 text2 : String) : ℚ :=
  similarityScore (lowerStr text1) (lowerStr text2)

/-- Model of `principles_similar` (`lib.rs:251-275`). -/
def principlesSimilar (principle1 principle2 : EngineeringPrinciple) : Bool :=
  if 7 / 10 < textSimilarity principle1.title principle2.title then true
  else if 6 / 10 < textSimilarity principle1.description principle2.description then true
  else
    let commonTerms := (principle1.related_terms.filter
      (fun term => principle2.related_terms.contains term)).length
    let totalTerms := principle1.related_terms.length + principle2.related_terms.length
    decide (0 < totalTerms) && decide ((1 : ℚ) / 2 < (commonTerms : ℚ) / (totalTerms : ℚ))

/-- Model of `get_or_analyze_principles` (`lib.rs:203-248`), cache-miss path:
semantic results first, regex results appended when not similar to any
already-combined principle, then confidence-descending sort and
truncation to 8. -/
def getOrAnalyzePrinciples (ord : String → List (Category × Nat))
    (page : WikipediaPage) : List EngineeringPrinciple :=
  let regexPrinciples := analyzePage ord page
  let semanticPrinciples := analyzePageSemantically page
  let combinedPrinciples := regexPrinciples.foldl (fun acc regexPrinciple =>
    if acc.any (fun semanticPrinciple => principlesSimilar regexPrinciple semanticPrinciple)
    then acc else acc ++ [regexPrinciple]) semanticPrinciples
  (sortByStable confDesc combinedPrinciples).take 8

/-! ### The recursive analysis engine (`lib.rs:34-183`)

`AnalysisNode.children` is a `HashMap<String, Box<AnalysisNode>>`; it is
modelled as an association list with `HashMap::insert` replace
semantics (`Children`).  The per-request path-visited
`Arc<Mutex<HashSet<String>>>` is a `Finset String` threaded through the
computation — it is shared by reference in the source, so every return
path (including the error path) hands its current state back to the
caller.  The Wikipedia fetch together with the (deterministic)
principle analysis and related-concept extraction for the fetched page
is abstracted into an environment `Env`; recursion is fuelled, and with
fuel `max_depth − depth` the fuel-exhaustion branch coincides with the
source's `current_depth >= max_depth` leaf, making the embedding exact
for the calls the engine performs. -/

mutual
inductive AnalysisNode where
  | mk (term : String) (principles : List EngineeringPrinciple)
       (children : Children) (depth : Nat)
inductive Children where
  | nil
  | cons (key : String) (node : AnalysisNode) (rest : Children)
end

def AnalysisNode.term : AnalysisNode → String
  | .mk t _ _ _ => t

def AnalysisNode.principles : AnalysisNode → List EngineeringPrinciple
  | .mk _ ps _ _ => ps

def AnalysisNode.children : AnalysisNode → Children
  | .mk _ _ cs _ => cs

def AnalysisNode.depth : AnalysisNode → Nat
  | .mk _ _ _ d => d

/-- Model of `HashMap::insert`: replace the value at an existing key, otherwise
add the binding. -/
def Children.insertChild : Children → String → AnalysisNode → Children
  | .nil, k, n => .cons k n .nil
  | .cons k' n' rest, k, n =>
    if k' = k then .cons k' n rest else .cons k' n' (rest.insertChild k n)

mutual
/-- Root-to-leaf term sequences of a node. -/
def AnalysisNode.paths : AnalysisNode → List (List String)
  | .mk t _ .nil _ => [[t]]
  | .mk t _ (.cons k c rest) _ =>
    (Children.pathsC (.cons k c rest)).map (fun p => t :: p)
def Children.pathsC : Children → List (List String)
  | .nil => []
  | .cons _ c rest => c.paths ++ rest.pathsC
end

mutual
/-- Model of `calculate_max_depth` (`lib.rs:367-373`): recursive maximum of the
`depth` fields. -/
def AnalysisNode.calculateMaxDepth : AnalysisNode → Nat
  | .mk _ _ cs d => max d cs.calculateMaxDepthC
def Children.calculateMaxDepthC : Children → Nat
  | .nil => 0
  | .cons _ c rest => max c.calculateMaxDepth rest.calculateMaxDepthC
end

mutual
/-- Model of `count_principles` (`lib.rs:359-365`). -/
def AnalysisNode.countPrinciples : AnalysisNode → Nat
  | .mk _ ps cs _ => ps.length + cs.countPrinciplesC
def Children.countPrinciplesC : Children → Nat
  | .nil => 0
  | .cons _ c rest => c.countPrinciples + rest.countPrinciplesC
end

mutual
/-- Every node's `depth` equals its distance from the root (root at
distance `d`). -/
def AnalysisNode.depthOk : AnalysisNode → Nat → Bool
  | .mk _ _ cs d', d => d' = d && cs.depthOkC (d + 1)
def Children.depthOkC : Children → Nat → Bool
  | .nil, _ => true
  | .cons _ c rest, d => c.depthOk d && rest.depthOkC d
end

/-- Outcome of resolving one term: the fetch fails, the page is missing,
or a page is found whose (deterministic) analysis yields the given
principles and related concepts. -/
inductive FetchOutcome where
  | fetchError (msg : String)
  | pageMissing
  | pageFound (principles : List EngineeringPrinciple) (related : List String)

/-- The external-content environment of one request. -/
abbrev Env : Type := String → FetchOutcome

/-- Model of `WikiEngine::analyze_term_recursive` (`lib.rs:90-183`).  Returns the
call's result together with the final state of the shared path-visited
set (also on error — the set is shared by reference in the source).
The child loop folds over the extracted concepts exactly as the
source's `for` loop does: recurse only into concepts not visited and
different from the current term, insert successful children, skip
failed ones. -/
def analyzeTermRecursive (env : Env) :
    Nat → String → Nat → Nat → Nat → Finset String →
    Except String AnalysisNode × Finset String
  | 0, term, depth, _, _, visited =>
    (.ok (.mk term [] .nil depth), visited)
  | fuel + 1, term, depth, maxDepth, maxResults, visited =>
    if term ∈ visited ∨ maxDepth ≤ depth then
      (.ok (.mk term [] .nil depth), visited)
    else
      let visited1 := insert term visited
      match env term with
      | .fetchError e => (.error e, visited1)
      | .pageMissing => (.ok (.mk term [] .nil depth), visited1)
      | .pageFound principles related =>
        let relatedConcepts := if depth < maxDepth then related else []
        let conceptsToAnalyze := relatedConcepts.take maxResults
        let r := conceptsToAnalyze.foldl (fun (acc : Children × Finset String) concept =>
          if concept ∉ acc.2 ∧ concept ≠ term then
            match analyzeTermRecursive env fuel concept (depth + 1) maxDepth maxResults acc.2 with
            | (.ok childNode, visited') => (acc.1.insertChild concept childNode, visited')
            | (.error _, visited') => (acc.1, visited')
          else acc) (Children.nil, visited1)
        (.ok (.mk term principles r.1 depth), (r.2).erase term)

/-- Model of `AnalysisResult` (timing fields, which reflect wall-clock time, are
omitted). -/
structure AnalysisResult where
  root_term : String
  tree : AnalysisNode
  total_principles : Nat
  max_depth_reached : Nat

/-- Model of `WikiEngine::analyze_recursive` (`lib.rs:34-88`), cache-miss path:
run the recursion from depth 0 with an empty visited set and aggregate.
Fuel `maxDepth` is exact: a call at depth `d` holds fuel
`maxDepth − d`, which is exhausted only when `d ≥ maxDepth`, where the
source returns the same leaf. -/
def analyzeRecursive (env : Env) (term : String) (maxDepth maxResults : Nat) :
    Except String AnalysisResult :=
  match analyzeTermRecursive env maxDepth term 0 maxDepth maxResults ∅ with
  | (.ok rootNode, _) =>
    .ok { root_term := term
          tree := rootNode
          total_principles := rootNode.countPrinciples
          max_depth_reached := rootNode.calculateMaxDepth }
  | (.error e, _) => .error e

/-! ### The cache (`cache.rs`)

All three stores (`wikipedia_pages`, `principles`, `analysis_nodes`)
run the same generic logic, modelled once, polymorphically, as the
source writes it generically over `DashMap<String, CacheEntry<T>>`.
`Instant`s are modelled as `Nat` timestamps with `elapsed = now −
created`; `DashMap` iteration order is the list order of the store. -/

/-- Model of `CacheEntry<T>` (`cache.rs:6-11`). -/
structure CacheEntry (α : Type) where
  data : α
  timestamp : Nat
  access_count : Nat
  deriving Repr

/-- Model of `CacheEntry::new` (`cache.rs:14-20`): created at `now` with
`access_count` 1. -/
def CacheEntry.new (now : Nat) (data : α) : CacheEntry α :=
  { data := data, timestamp := now, access_count := 1 }

/-- Model of `CacheEntry::is_expired` (`cache.rs:22-24`):
`timestamp.elapsed() > ttl`. -/
def CacheEntry.isExpired (entry : CacheEntry α) (ttl now : Nat) : Bool :=
  ttl < now - entry.timestamp

/-- Model of `CacheEntry::access` (`cache.rs:26-29`). -/
def CacheEntry.access (entry : CacheEntry α) : CacheEntry α :=
  { entry with access_count := entry.access_count + 1 }

/-- One store: keys to entries, unique keys. -/
abbrev Store (α : Type) : Type := List (String × CacheEntry α)

/-- Model of `DashMap::get` by key. -/
def storeLookup (key : String) : Store α → Option (CacheEntry α)
  | [] => none
  | (k, e) :: rest => if k = key then some e else storeLookup key rest

/-- Model of `DashMap::remove` by key (keys are unique; removes the binding). -/
def storeRemove (key : String) : Store α → Store α
  | [] => []
  | (k, e) :: rest => if k = key then rest else (k, e) :: storeRemove key rest

/-- Replace the entry at `key`. -/
def storeUpdate (key : String) (e' : CacheEntry α) : Store α → Store α
  | [] => []
  | (k, e) :: rest => if k = key then (k, e') :: rest else (k, e) :: storeUpdate key e' rest

/-- The shared read logic of `get_wikipedia_page` / `get_principles` /
`get_analysis_node` (`cache.rs:65-76,84-94,102-112`): on a present,
unexpired entry increment `access_count` and return a copy of the data;
on an expired entry remove it and miss. -/
def cacheGet (store : Store α) (key : String) (ttl now : Nat) : Option α × Store α :=
  match storeLookup key store with
  | none => (none, store)
  | some entry =>
    if !entry.isExpired ttl now then
      (some entry.data, storeUpdate key entry.access store)
    else
      (none, storeRemove key store)

/-- Model of `evict_oldest` (`cache.rs:131-147`): linear scan for the entry with
the strictly smallest timestamp (starting from `Instant::now()`),
remove it if found. -/
def evictOldest (now : Nat) (store : Store α) : Store α :=
  let scan := store.foldl (fun (acc : Option String × Nat) entry =>
    if entry.2.timestamp < acc.2 then (some entry.1, entry.2.timestamp) else acc)
    (none, now)
  match scan.1 with
  | some key => storeRemove key store
  | none => store

/-- Model of `ensure_capacity` (`cache.rs:125-129`). -/
def ensureCapacity (maxEntries now : Nat) (store : Store α) : Store α :=
  if maxEntries ≤ store.length then evictOldest now store else store

/-- The shared write logic of `cache_wikipedia_page` /
`cache_principles` / `cache_analysis_node` (`cache.rs:78-81,96-99,
114-117`): ensure capacity, then insert a fresh entry. -/
def cacheWrite (maxEntries now : Nat) (store : Store α) (key : String) (value : α) : Store α :=
  let store := ensureCapacity maxEntries now store
  (key, CacheEntry.new now value) :: storeRemove key store

/-! ### Auxiliary named definitions used by the verification
(loop bodies, spec-side definitions, and the concrete environments and
pages evaluated in the theorems). -/

/-- The fold step of `max_by_key` (last maximal element wins). -/
def maxStep (acc : Option (Category × Nat)) (x : Category × Nat) :
    Option (Category × Nat) :=
  match acc with
  | none => some x
  | some b => if b.2 ≤ x.2 then some x else some b

/-- Modelled from the spec: the claimed confidence formula — 0.2 per
principle-indicator match plus 0.15 per winning-category pattern match,
a 0.1 bonus for length strictly between 50 and 300 (the source measures
bytes), a 0.2 bonus for mathematical notation, clamped to [0, 1]; a
unit categorized `Other` yields exactly 0.3. -/
def specConfidence (text : String) (category : Category) : ℚ :=
  match category with
  | .Other _ => 3 / 10
  | cat =>
    ratMax 0 (ratMin 1
      ((principleMatchCount text : ℚ) * (2 / 10) +
       (groupCount (patternsFor cat) text : ℚ) * (15 / 100) +
       (if 50 < byteLen text ∧ byteLen text < 300 then 1 / 10 else 0) +
       (if hasMathPattern text then 2 / 10 else 0)))

/-- Did the fetch find a page? -/
def FetchOutcome.isFound : FetchOutcome → Bool
  | .pageFound _ _ => true
  | _ => false

/-- The body of the child loop of `analyze_term_recursive`
(`lib.rs:149-171`), named for reasoning. -/
def childStep (env : Env) (fuel depth maxD maxR : Nat) (term : String)
    (acc : Children × Finset String) (concept : String) : Children × Finset String :=
  if concept ∉ acc.2 ∧ concept ≠ term then
    match analyzeTermRecursive env fuel concept (depth + 1) maxD maxR acc.2 with
    | (.ok childNode, visited') => (acc.1.insertChild concept childNode, visited')
    | (.error _, visited') => (acc.1, visited')
  else acc

/-- An environment in which fetching "a" fails with an error and every
other fetch finds no page. -/
def envErr : Env := fun t =>
  if t = "a" then .fetchError ("network failure") else .pageMissing

/-- An environment in which every fetch finds a page. -/
def envAllFound : Env := fun t =>
  if t = "a" then .pageFound [] ["b", "c"] else .pageFound [] []

/-- An environment whose concept graph is the diamond
a → {b, c}, b → {d}, c → {d}. -/
def envSibling : Env := fun t =>
  if t = "a" then .pageFound [] ["b", "c"]
  else if t = "b" then .pageFound [] ["d"]
  else if t = "c" then .pageFound [] ["d"]
  else if t = "d" then .pageFound [] []
  else .pageMissing

/-- The paths of the tree computed for the diamond environment. -/
def c2Paths : List (List String) :=
  match analyzeRecursive envSibling ("a") 3 5 with
  | .ok r => r.tree.paths
  | .error _ => []

/-- The default result used to destructure concrete runs. -/
def emptyResult : AnalysisResult :=
  { root_term := "", tree := .mk "" [] .nil 0, total_principles := 0, max_depth_reached := 0 }

def c2Result : AnalysisResult :=
  (analyzeRecursive envSibling ("a") 3 5).toOption.getD emptyResult

def c3Result : AnalysisResult :=
  (analyzeRecursive envSibling ("a") 3 5).toOption.getD emptyResult

/-- The page of the C6 counterexample: title "uav", empty extract. -/
def page6 : WikipediaPage := { title := "uav", extract := "", url := "u", page_id := 0 }

/-- The page and sentence of the C7 witness. -/
def pageW : WikipediaPage := { title := "t", extract := "", url := "u", page_id := 0 }

def sentence7 : String := "the fundamental principle of gear efficiency"

def principle7 : EngineeringPrinciple :=
  (extractPrincipleFromSentence canonOrd pageW sentence7).getD default

/-! ## General lemmas -/

theorem foldl_induction {α β : Type _} (P : β → Prop) (f : β → α → β) :
    ∀ (l : List α) (b : β), P b → (∀ b' a, a ∈ l → P b' → P (f b' a)) →
      P (l.foldl f b)
  | [], b, hb, _ => hb
  | a :: l, b, hb, hf =>
    foldl_induction P f l (f b a) (hf b a (List.mem_cons_self a l) hb)
      (fun b' a' ha' => hf b' a' (List.mem_cons_of_mem a ha'))

/-! ## Cache lemmas and claims -/

theorem storeLookup_update_self {α : Type} (key : String) (e' : CacheEntry α) :
    ∀ store : Store α, (storeLookup key store).isSome →
      storeLookup key (storeUpdate key e' store) = some e'
  | [], h => by simp [storeLookup] at h
  | (k, e) :: rest, h => by
    by_cases hk : k = key
    · simp [storeUpdate, storeLookup, hk]
    · simp only [storeUpdate, storeLookup, hk, if_false]
      simp only [storeLookup, hk, if_false] at h
      exact storeLookup_update_self key e' rest h

theorem storeRemove_length {α : Type} (k : String) :
    ∀ store : Store α, (∃ e, (k, e) ∈ store) →
      (storeRemove k store).length + 1 = store.length
  | [], h => by simp at h
  | (k', e') :: rest, h => by
    by_cases hk : k' = k
    · simp [storeRemove, hk]
    · simp only [storeRemove, hk, if_false, List.length_cons]
      obtain ⟨e, he⟩ := h
      rcases List.mem_cons.1 he with heq | hmem
      · exact absurd (congrArg Prod.fst heq).symm hk
      · rw [storeRemove_length k rest ⟨e, hmem⟩]

/-- The `evict_oldest` scan (a fold keeping the strictly smallest
timestamp seen so far): either nothing beat the initial bound, or the
result is the first minimal entry. -/
theorem evictScan_spec {α : Type} :
    ∀ (l : Store α) (accK : Option String) (accT : Nat),
      (l.foldl (fun (acc : Option String × Nat) entry =>
          if entry.2.timestamp < acc.2 then (some entry.1, entry.2.timestamp) else acc)
        (accK, accT) = (accK, accT) ∧ ∀ kv ∈ l, accT ≤ kv.2.timestamp) ∨
      (∃ k e, (k, e) ∈ l ∧
        l.foldl (fun (acc : Option String × Nat) entry =>
            if entry.2.timestamp < acc.2 then (some entry.1, entry.2.timestamp) else acc)
          (accK, accT) = (some k, e.timestamp) ∧
        e.timestamp < accT ∧ ∀ kv ∈ l, e.timestamp ≤ kv.2.timestamp)
  | [], accK, accT => by simp
  | kv :: l, accK, accT => by
    by_cases h : kv.2.timestamp < accT
    · simp only [List.foldl_cons, if_pos h]
      rcases evictScan_spec l (some kv.1) kv.2.timestamp with ⟨heq, hmin⟩ | ⟨k, e, hmem, heq, hlt, hmin⟩
      · refine .inr ⟨kv.1, kv.2, List.mem_cons_self _ _, heq, h, ?_⟩
        intro x hx
        rcases List.mem_cons.1 hx with rfl | hx
        · exact le_refl _
        · exact hmin x hx
      · refine .inr ⟨k, e, List.mem_cons_of_mem _ hmem, heq, lt_trans hlt h, ?_⟩
        intro x hx
        rcases List.mem_cons.1 hx with rfl | hx
        · exact le_of_lt hlt
        · exact hmin x hx
    · simp only [List.foldl_cons, if_neg h]
      rcases evictScan_spec l accK accT with ⟨heq, hmin⟩ | ⟨k, e, hmem, heq, hlt, hmin⟩
      · refine .inl ⟨heq, ?_⟩
        intro x hx
        rcases List.mem_cons.1 hx with rfl | hx
        · exact le_of_not_lt h
        · exact hmin x hx
      · refine .inr ⟨k, e, List.mem_cons_of_mem _ hmem, heq, hlt, ?_⟩
        intro x hx
        rcases List.mem_cons.1 hx with rfl | hx
        · exact le_trans (le_of_lt hlt) (le_of_not_lt h)
        · exact hmin x hx

/-- C8. For every cache store, reading a present entry whose age is at
most the TTL increments its `access_count` and returns a copy of the
stored value; reading a present entry older than the TTL reports a miss
and removes the entry.  (The three stores share this logic verbatim;
it is stated once, polymorphically, as the source writes it.) -/
theorem claim_C8_cache_read {α : Type} (store : Store α) (key : String)
    (ttl now : Nat) (entry : CacheEntry α)
    (hlook : storeLookup key store = some entry) :
    (now - entry.timestamp ≤ ttl →
      cacheGet store key ttl now =
        (some entry.data, storeUpdate key entry.access store) ∧
      storeLookup key (cacheGet store key ttl now).2 =
        some { entry with access_count := entry.access_count + 1 }) ∧
    (ttl < now - entry.timestamp →
      cacheGet store key ttl now = (none, storeRemove key store)) := by
  constructor
  · intro hfresh
    have hexp : entry.isExpired ttl now = false := by
      simp [CacheEntry.isExpired, not_lt.2 hfresh]
    have hget : cacheGet store key ttl now =
        (some entry.data, storeUpdate key entry.access store) := by
      simp [cacheGet, hlook, hexp]
    refine ⟨hget, ?_⟩
    rw [hget]
    exact storeLookup_update_self key entry.access store (by simp [hlook])
  · intro hstale
    have hexp : entry.isExpired ttl now = true := by
      simp [CacheEntry.isExpired, hstale]
    simp [cacheGet, hlook, hexp]

/-- C8 witness: a store with one entry created at time 10 under TTL 15,
read at time 20 (hit, count bumped) and at time 40 (expired, removed). -/
theorem claim_C8_witness :
    cacheGet [(("k" : String), CacheEntry.mk (5 : Nat) 10 1)] ("k") 15 20 =
      (some 5, [("k", CacheEntry.mk 5 10 2)]) ∧
    cacheGet [(("k" : String), CacheEntry.mk (5 : Nat) 10 1)] ("k") 15 40 = (none, []) :=
  ⟨((claim_C8_cache_read [("k", CacheEntry.mk 5 10 1)] ("k") 15 20 (CacheEntry.mk 5 10 1) rfl).1
      (by decide)).1,
   (claim_C8_cache_read [("k", CacheEntry.mk 5 10 1)] ("k") 15 40 (CacheEntry.mk 5 10 1) rfl).2
      (by decide)⟩

/-- C9. A write below capacity evicts nothing (it is a plain insert); a
write at (or past) capacity on a store with unique keys, all of whose
entries were created strictly before `now`, first evicts exactly one
entry of globally minimal creation timestamp and then inserts. -/
theorem claim_C9_capacity_eviction {α : Type} (store : Store α) (key : String)
    (value : α) (maxEntries now : Nat) :
    (store.length < maxEntries →
      cacheWrite maxEntries now store key value =
        (key, CacheEntry.new now value) :: storeRemove key store) ∧
    (maxEntries ≤ store.length → store ≠ [] →
      (∀ kv ∈ store, kv.2.timestamp < now) →
      ∃ kmin emin, (kmin, emin) ∈ store ∧
        (∀ kv ∈ store, emin.timestamp ≤ kv.2.timestamp) ∧
        evictOldest now store = storeRemove kmin store ∧
        (evictOldest now store).length + 1 = store.length ∧
        cacheWrite maxEntries now store key value =
          (key, CacheEntry.new now value) :: storeRemove key (storeRemove kmin store)) := by
  constructor
  · intro hroom
    simp [cacheWrite, ensureCapacity, not_le.2 hroom]
  · intro hfull hne hfresh
    obtain ⟨kv₀, l₀, rfl⟩ : ∃ kv l, store = kv :: l := by
      cases store with
      | nil => exact absurd rfl hne
      | cons kv l => exact ⟨kv, l, rfl⟩
    rcases evictScan_spec (kv₀ :: l₀) none now with ⟨_, hmin⟩ | ⟨k, e, hmem, heq, _, hmin⟩
    · exact absurd (hmin kv₀ (List.mem_cons_self _ _))
        (not_le.2 (hfresh kv₀ (List.mem_cons_self _ _)))
    · refine ⟨k, e, hmem, hmin, ?_, ?_, ?_⟩
      · simp [evictOldest, heq]
      · rw [show evictOldest now (kv₀ :: l₀) = storeRemove k (kv₀ :: l₀) by
          simp [evictOldest, heq]]
        exact storeRemove_length k _ ⟨e, hmem⟩
      · simp only [cacheWrite, ensureCapacity, if_pos hfull]
        simp [evictOldest, heq]

/-- C9 witness: a store at capacity 2 with creation times 30 and 10;
writing evicts the age-10 entry; a store below capacity evicts
nothing. -/
theorem claim_C9_witness :
    (∃ kmin emin,
      (kmin, emin) ∈ [(("a" : String), CacheEntry.mk (1 : Nat) 30 1), ("b", CacheEntry.mk 2 10 1)] ∧
      (∀ kv ∈ [(("a" : String), CacheEntry.mk (1 : Nat) 30 1), ("b", CacheEntry.mk 2 10 1)],
        emin.timestamp ≤ kv.2.timestamp) ∧
      evictOldest 50 [(("a" : String), CacheEntry.mk (1 : Nat) 30 1), ("b", CacheEntry.mk 2 10 1)] =
        storeRemove kmin [(("a" : String), CacheEntry.mk (1 : Nat) 30 1), ("b", CacheEntry.mk 2 10 1)] ∧
      (evictOldest 50 [(("a" : String), CacheEntry.mk (1 : Nat) 30 1), ("b", CacheEntry.mk 2 10 1)]).length + 1 = 2 ∧
      cacheWrite 2 50 [(("a" : String), CacheEntry.mk (1 : Nat) 30 1), ("b", CacheEntry.mk 2 10 1)] ("c") 3 =
        ("c", CacheEntry.new 50 3) ::
          storeRemove ("c") (storeRemove kmin
            [(("a" : String), CacheEntry.mk (1 : Nat) 30 1), ("b", CacheEntry.mk 2 10 1)])) ∧
    cacheWrite 9 50 [(("a" : String), CacheEntry.mk (1 : Nat) 30 1)] ("c") 3 =
      ("c", CacheEntry.new 50 3) :: [("a", CacheEntry.mk 1 30 1)] :=
  ⟨(claim_C9_capacity_eviction _ ("c") 3 2 50).2 (by decide) (by simp) (by decide),
   (claim_C9_capacity_eviction _ ("c") 3 9 50).1 (by decide)⟩

/-- Reads at fresh (unexpired) times each bump the access count by one
and keep the data and creation time. -/
theorem cacheGet_iterate_count {α : Type} (key : String) (value : α)
    (now₀ ttl : Nat) :
    ∀ (times : List Nat) (store : Store α) (j : Nat),
      storeLookup key store = some (CacheEntry.mk value now₀ j) →
      (∀ t ∈ times, t - now₀ ≤ ttl) →
      storeLookup key (times.foldl (fun s t => (cacheGet s key ttl t).2) store) =
        some (CacheEntry.mk value now₀ (j + times.length))
  | [], store, j, hlook, _ => by simpa using hlook
  | t :: times, store, j, hlook, hfresh => by
    have hexp : (CacheEntry.mk value now₀ j).isExpired ttl t = false := by
      simp [CacheEntry.isExpired, not_lt.2 (hfresh t (List.mem_cons_self _ _))]
    have hstep : (cacheGet store key ttl t).2 =
        storeUpdate key (CacheEntry.mk value now₀ j).access store := by
      simp [cacheGet, hlook, hexp]
    have hlook' : storeLookup key (cacheGet store key ttl t).2 =
        some (CacheEntry.mk value now₀ (j + 1)) := by
      rw [hstep]
      exact storeLookup_update_self key _ store (by simp [hlook])
    have := cacheGet_iterate_count key value now₀ ttl times
      ((cacheGet store key ttl t).2) (j + 1) hlook'
      (fun t' ht' => hfresh t' (List.mem_cons_of_mem _ ht'))
    simpa [Nat.add_assoc, Nat.add_comm 1 times.length] using this

/-- C10. A fresh insert starts at `access_count` 1, so after the insert
and any sequence of successful unexpired reads the count is the number
of reads plus one. -/
theorem claim_C10_access_count_init {α : Type} (store : Store α) (key : String)
    (value : α) (maxEntries now₀ ttl : Nat) (times : List Nat)
    (hfresh : ∀ t ∈ times, t - now₀ ≤ ttl) :
    storeLookup key (times.foldl (fun s t => (cacheGet s key ttl t).2)
        (cacheWrite maxEntries now₀ store key value)) =
      some (CacheEntry.mk value now₀ (times.length + 1)) := by
  have hlook : storeLookup key (cacheWrite maxEntries now₀ store key value) =
      some (CacheEntry.mk value now₀ 1) := by
    simp [cacheWrite, storeLookup, CacheEntry.new]
  have := cacheGet_iterate_count key value now₀ ttl times _ 1 hlook hfresh
  simpa [Nat.add_comm 1 times.length] using this

/-- C10 witness: insert at time 0, three fresh reads, count 4. -/
theorem claim_C10_witness :
    storeLookup ("k") ([1, 2, 3].foldl (fun s t => (cacheGet s ("k") 100 t).2)
        (cacheWrite 10 0 ([] : Store Nat) ("k") 7)) =
      some (CacheEntry.mk 7 0 4) :=
  claim_C10_access_count_init [] ("k") 7 10 0 100 [1, 2, 3] (by decide)

/-! ## Engine lemmas -/

theorem atr_zero (env : Env) (term : String) (depth maxD maxR : Nat) (V : Finset String) :
    analyzeTermRecursive env 0 term depth maxD maxR V =
      (.ok (.mk term [] .nil depth), V) := rfl

theorem atr_guard (env : Env) {term : String} {depth maxD : Nat} {V : Finset String}
    (fuel maxR : Nat) (h : term ∈ V ∨ maxD ≤ depth) :
    analyzeTermRecursive env (fuel + 1) term depth maxD maxR V =
      (.ok (.mk term [] .nil depth), V) := by
  simp [analyzeTermRecursive, h]

theorem atr_error (env : Env) {term : String} {depth maxD : Nat} {V : Finset String}
    {msg : String} (fuel maxR : Nat) (hg : ¬(term ∈ V ∨ maxD ≤ depth))
    (he : env term = .fetchError msg) :
    analyzeTermRecursive env (fuel + 1) term depth maxD maxR V =
      (.error msg, insert term V) := by
  simp [analyzeTermRecursive, hg, he]

theorem atr_missing (env : Env) {term : String} {depth maxD : Nat} {V : Finset String}
    (fuel maxR : Nat) (hg : ¬(term ∈ V ∨ maxD ≤ depth))
    (he : env term = .pageMissing) :
    analyzeTermRecursive env (fuel + 1) term depth maxD maxR V =
      (.ok (.mk term [] .nil depth), insert term V) := by
  simp [analyzeTermRecursive, hg, he]

theorem atr_found (env : Env) {term : String} {depth maxD : Nat} {V : Finset String}
    {ps : List EngineeringPrinciple} {rel : List String}
    (fuel maxR : Nat) (hg : ¬(term ∈ V ∨ maxD ≤ depth))
    (he : env term = .pageFound ps rel) :
    analyzeTermRecursive env (fuel + 1) term depth maxD maxR V =
      (.ok (.mk term ps
        (((if depth < maxD then rel else []).take maxR).foldl
          (childStep env fuel depth maxD maxR term) (Children.nil, insert term V)).1 depth),
       (((if depth < maxD then rel else []).take maxR).foldl
          (childStep env fuel depth maxD maxR term) (Children.nil, insert term V)).2.erase term) := by
  simp only [analyzeTermRecursive, hg, he, if_neg hg]
  rfl

/-- Case analysis for one child-loop step. -/
theorem childStep_cases (env : Env) (fuel depth maxD maxR : Nat) (term : String)
    (acc : Children × Finset String) (concept : String) :
    childStep env fuel depth maxD maxR term acc concept = acc ∨
    (concept ∉ acc.2 ∧ concept ≠ term ∧
      ((∃ child v', analyzeTermRecursive env fuel concept (depth + 1) maxD maxR acc.2 =
          (.ok child, v') ∧
          childStep env fuel depth maxD maxR term acc concept =
            (acc.1.insertChild concept child, v')) ∨
       (∃ msg v', analyzeTermRecursive env fuel concept (depth + 1) maxD maxR acc.2 =
          (.error msg, v') ∧
          childStep env fuel depth maxD maxR term acc concept = (acc.1, v')))) := by
  by_cases hc : concept ∉ acc.2 ∧ concept ≠ term
  · refine .inr ⟨hc.1, hc.2, ?_⟩
    rcases h : analyzeTermRecursive env fuel concept (depth + 1) maxD maxR acc.2 with ⟨res, v'⟩
    cases res with
    | ok child =>
      exact .inl ⟨child, v', rfl, by simp [childStep, hc, h]⟩
    | error msg =>
      exact .inr ⟨msg, v', rfl, by simp [childStep, hc, h]⟩
  · exact .inl (by simp [childStep, hc])

/-- Elements of the shared visited set other than the called term are
never removed by a call (removal only ever targets the call's own
term). -/
theorem visited_mono (env : Env) :
    ∀ (fuel : Nat) (term : String) (depth maxD maxR : Nat) (V : Finset String)
      (x : String), x ∈ V → x ≠ term →
      x ∈ (analyzeTermRecursive env fuel term depth maxD maxR V).2
  | 0, term, depth, maxD, maxR, V, x, hx, _ => by
    rw [atr_zero]; exact hx
  | fuel + 1, term, depth, maxD, maxR, V, x, hx, hne => by
    by_cases hg : term ∈ V ∨ maxD ≤ depth
    · rw [atr_guard env fuel maxR hg]; exact hx
    · cases he : env term with
      | fetchError msg =>
        rw [atr_error env fuel maxR hg he]
        exact Finset.mem_insert_of_mem hx
      | pageMissing =>
        rw [atr_missing env fuel maxR hg he]
        exact Finset.mem_insert_of_mem hx
      | pageFound ps rel =>
        rw [atr_found env fuel maxR hg he]
        refine Finset.mem_erase.2 ⟨hne, ?_⟩
        refine foldl_induction (fun acc : Children × Finset String => x ∈ acc.2)
          (childStep env fuel depth maxD maxR term) _ _
          (Finset.mem_insert_of_mem hx) ?_
        intro acc concept _ hacc
        rcases childStep_cases env fuel depth maxD maxR term acc concept with
          heq | ⟨hnotin, _, ⟨child, v', hcall, heq⟩ | ⟨msg, v', hcall, heq⟩⟩
        · rw [heq]; exact hacc
        · rw [heq]
          have hxc : x ≠ concept := fun h => hnotin (h ▸ hacc)
          have := visited_mono env fuel concept (depth + 1) maxD maxR acc.2 x hacc hxc
          rw [hcall] at this; exact this
        · rw [heq]
          have hxc : x ≠ concept := fun h => hnotin (h ▸ hacc)
          have := visited_mono env fuel concept (depth + 1) maxD maxR acc.2 x hacc hxc
          rw [hcall] at this; exact this

/-- Membership of a path in the children after an insert comes from the
old children or from the inserted node. -/
theorem insertChild_pathsC_mem (k : String) (n : AnalysisNode) :
    ∀ (cs : Children) (q : List String),
      q ∈ (cs.insertChild k n).pathsC → q ∈ cs.pathsC ∨ q ∈ n.paths
  | .nil, q, h => by
    simp only [Children.insertChild, Children.pathsC, List.append_nil] at h
    exact .inr h
  | .cons k' c rest, q, h => by
    by_cases hk : k' = k
    · simp only [Children.insertChild, if_pos hk, Children.pathsC] at h
      rcases List.mem_append.1 h with h | h
      · exact .inr h
      · exact .inl (by simp only [Children.pathsC]; exact List.mem_append.2 (.inr h))
    · simp only [Children.insertChild, if_neg hk, Children.pathsC] at h
      rcases List.mem_append.1 h with h | h
      · exact .inl (by simp only [Children.pathsC]; exact List.mem_append.2 (.inl h))
      · rcases insertChild_pathsC_mem k n rest q h with h | h
        · exact .inl (by simp only [Children.pathsC]; exact List.mem_append.2 (.inr h))
        · exact .inr h

theorem ok_pair_inj {n t : AnalysisNode} {V v' : Finset String}
    (h : ((Except.ok n : Except String AnalysisNode), V) = (.ok t, v')) :
    n = t ∧ V = v' := by
  have h1 := congrArg Prod.fst h
  have h2 := congrArg Prod.snd h
  simp only [] at h1 h2
  exact ⟨by injection h1, h2⟩

theorem leaf_paths_sound (term : String) (principles : List EngineeringPrinciple)
    (depth : Nat) (V : Finset String) :
    ∀ p ∈ (AnalysisNode.mk term principles .nil depth).paths,
      p.Nodup ∧ ∀ x ∈ p, x = term ∨ x ∉ V := by
  intro p hp
  simp only [AnalysisNode.paths, List.mem_singleton] at hp
  subst hp
  constructor
  · simp
  · intro x hx
    rw [List.mem_singleton] at hx
    exact .inl hx

/-- Soundness of the path-visited discipline: in the tree returned by a
successful call, every root-to-leaf path is duplicate-free, and every
term on it other than the called term was outside the incoming visited
set. -/
theorem paths_sound (env : Env) :
    ∀ (fuel : Nat) (term : String) (depth maxD maxR : Nat) (V : Finset String)
      (t : AnalysisNode) (v' : Finset String),
      analyzeTermRecursive env fuel term depth maxD maxR V = (.ok t, v') →
      ∀ p ∈ t.paths, p.Nodup ∧ ∀ x ∈ p, x = term ∨ x ∉ V
  | 0, term, depth, maxD, maxR, V, t, v', heq => by
    rw [atr_zero] at heq
    obtain ⟨rfl, rfl⟩ := ok_pair_inj heq
    exact leaf_paths_sound term [] depth V
  | fuel + 1, term, depth, maxD, maxR, V, t, v', heq => by
    by_cases hg : term ∈ V ∨ maxD ≤ depth
    · rw [atr_guard env fuel maxR hg] at heq
      obtain ⟨rfl, rfl⟩ := ok_pair_inj heq
      exact leaf_paths_sound term [] depth V
    · cases he : env term with
      | fetchError msg =>
        rw [atr_error env fuel maxR hg he] at heq
        exact absurd (congrArg Prod.fst heq) (by simp)
      | pageMissing =>
        rw [atr_missing env fuel maxR hg he] at heq
        obtain ⟨rfl, rfl⟩ := ok_pair_inj heq
        exact leaf_paths_sound term [] depth V
      | pageFound ps rel =>
        rw [atr_found env fuel maxR hg he] at heq
        obtain ⟨rfl, _⟩ := ok_pair_inj heq
        -- invariant over the child loop
        have hloop := foldl_induction
          (fun acc : Children × Finset String =>
            insert term V ⊆ acc.2 ∧
            ∀ q ∈ Children.pathsC acc.1, q.Nodup ∧ ∀ x ∈ q, x ∉ insert term V)
          (childStep env fuel depth maxD maxR term)
          ((if depth < maxD then rel else []).take maxR)
          (Children.nil, insert term V)
          ⟨Finset.Subset.refl _, by intro q hq; simp [Children.pathsC] at hq⟩
          ?_
        · obtain ⟨hsub, hpaths⟩ := hloop
          intro p hp
          set C := (((if depth < maxD then rel else []).take maxR).foldl
            (childStep env fuel depth maxD maxR term) (Children.nil, insert term V)).1 with hC
          cases hCc : C with
          | nil =>
            rw [hCc] at hp
            exact leaf_paths_sound term ps depth V p hp
          | cons k c rest =>
            rw [hCc] at hp
            simp only [AnalysisNode.paths, List.mem_map] at hp
            obtain ⟨q, hq, rfl⟩ := hp
            rw [← hCc] at hq
            obtain ⟨hnd, hnotin⟩ := hpaths q hq
            have hterm_notin : term ∉ q := fun h =>
              hnotin term h (Finset.mem_insert_self term V)
            refine ⟨List.nodup_cons.2 ⟨hterm_notin, hnd⟩, ?_⟩
            intro x hx
            rcases List.mem_cons.1 hx with rfl | hx
            · exact .inl rfl
            · exact .inr (fun hxV =>
                hnotin x hx (Finset.mem_insert_of_mem hxV))
        · intro acc concept _ hacc
          obtain ⟨hsub, hpaths⟩ := hacc
          rcases childStep_cases env fuel depth maxD maxR term acc concept with
            hE | ⟨hnotin, hnet, ⟨child, v₂, hcall, hE⟩ | ⟨msg, v₂, hcall, hE⟩⟩
          · rw [hE]; exact ⟨hsub, hpaths⟩
          · rw [hE]
            constructor
            · intro y hy
              have hy2 := hsub hy
              have hyc : y ≠ concept := fun h => hnotin (h ▸ hy2)
              have := visited_mono env fuel concept (depth + 1) maxD maxR acc.2 y hy2 hyc
              rw [hcall] at this; exact this
            · intro q hq
              rcases insertChild_pathsC_mem concept child acc.1 q hq with hq | hq
              · exact hpaths q hq
              · obtain ⟨hnd, hmem⟩ := paths_sound env fuel concept (depth + 1) maxD maxR
                  acc.2 child v₂ hcall q hq
                refine ⟨hnd, ?_⟩
                intro x hx
                rcases hmem x hx with rfl | hxout
                · exact fun h => hnotin (hsub h)
                · exact fun h => hxout (hsub h)
          · rw [hE]
            constructor
            · intro y hy
              have hy2 := hsub hy
              have hyc : y ≠ concept := fun h => hnotin (h ▸ hy2)
              have := visited_mono env fuel concept (depth + 1) maxD maxR acc.2 y hy2 hyc
              rw [hcall] at this; exact this
            · exact hpaths

theorem insertChild_depthOkC (k : String) (n : AnalysisNode) (d : Nat)
    (hn : n.depthOk d = true) :
    ∀ cs : Children, cs.depthOkC d = true → (cs.insertChild k n).depthOkC d = true
  | .nil, _ => by
    simp only [Children.insertChild, Children.depthOkC, hn, Bool.and_self]
  | .cons k' c rest, h => by
    simp only [Children.depthOkC, Bool.and_eq_true] at h
    by_cases hk : k' = k
    · simp only [Children.insertChild, if_pos hk, Children.depthOkC, hn, h.2, Bool.and_self]
    · simp only [Children.insertChild, if_neg hk, Children.depthOkC, h.1,
        insertChild_depthOkC k n d hn rest h.2, Bool.and_self]

theorem insertChild_maxDepthC_le (k : String) (n : AnalysisNode) :
    ∀ cs : Children,
      (cs.insertChild k n).calculateMaxDepthC ≤
        max cs.calculateMaxDepthC n.calculateMaxDepth
  | .nil => by
    simp only [Children.insertChild, Children.calculateMaxDepthC]
    omega
  | .cons k' c rest => by
    by_cases hk : k' = k
    · simp only [Children.insertChild, if_pos hk, Children.calculateMaxDepthC]
      omega
    · simp only [Children.insertChild, if_neg hk, Children.calculateMaxDepthC]
      have := insertChild_maxDepthC_le k n rest
      omega

theorem leaf_depth_sound (term : String) (principles : List EngineeringPrinciple)
    (depth maxD : Nat) (hd : depth ≤ maxD) :
    (AnalysisNode.mk term principles .nil depth).depthOk depth = true ∧
    (AnalysisNode.mk term principles .nil depth).calculateMaxDepth ≤ maxD := by
  constructor
  · simp [AnalysisNode.depthOk, Children.depthOkC]
  · simp only [AnalysisNode.calculateMaxDepth, Children.calculateMaxDepthC]
    omega

/-- Depth soundness: the tree of a successful call started at depth
`d ≤ maxD` has every node's `depth` equal to its distance from the
root (offset by `d`), and all depths bounded by `maxD`. -/
theorem depth_sound (env : Env) :
    ∀ (fuel : Nat) (term : String) (depth maxD maxR : Nat) (V : Finset String)
      (t : AnalysisNode) (v' : Finset String), depth ≤ maxD →
      analyzeTermRecursive env fuel term depth maxD maxR V = (.ok t, v') →
      t.depthOk depth = true ∧ t.calculateMaxDepth ≤ maxD
  | 0, term, depth, maxD, maxR, V, t, v', hd, heq => by
    rw [atr_zero] at heq
    obtain ⟨rfl, rfl⟩ := ok_pair_inj heq
    exact leaf_depth_sound term [] depth maxD hd
  | fuel + 1, term, depth, maxD, maxR, V, t, v', hd, heq => by
    by_cases hg : term ∈ V ∨ maxD ≤ depth
    · rw [atr_guard env fuel maxR hg] at heq
      obtain ⟨rfl, rfl⟩ := ok_pair_inj heq
      exact leaf_depth_sound term [] depth maxD hd
    · have hlt : depth < maxD := by
        rcases not_or.1 hg with ⟨_, h2⟩
        exact not_le.1 h2
      cases he : env term with
      | fetchError msg =>
        rw [atr_error env fuel maxR hg he] at heq
        exact absurd (congrArg Prod.fst heq) (by simp)
      | pageMissing =>
        rw [atr_missing env fuel maxR hg he] at heq
        obtain ⟨rfl, rfl⟩ := ok_pair_inj heq
        exact leaf_depth_sound term [] depth maxD hd
      | pageFound ps rel =>
        rw [atr_found env fuel maxR hg he] at heq
        obtain ⟨rfl, _⟩ := ok_pair_inj heq
        have hloop := foldl_induction
          (fun acc : Children × Finset String =>
            acc.1.depthOkC (depth + 1) = true ∧ acc.1.calculateMaxDepthC ≤ maxD)
          (childStep env fuel depth maxD maxR term)
          ((if depth < maxD then rel else []).take maxR)
          (Children.nil, insert term V)
          ⟨rfl, by simp [Children.calculateMaxDepthC]⟩
          ?_
        · obtain ⟨hok, hmax⟩ := hloop
          constructor
          · simp only [AnalysisNode.depthOk, hok, Bool.and_true, decide_eq_true_eq]
          · simp only [AnalysisNode.calculateMaxDepth]
            exact max_le hd hmax
        · intro acc concept _ hacc
          obtain ⟨hok, hmax⟩ := hacc
          rcases childStep_cases env fuel depth maxD maxR term acc concept with
            hE | ⟨_, _, ⟨child, v₂, hcall, hE⟩ | ⟨msg, v₂, hcall, hE⟩⟩
          · rw [hE]; exact ⟨hok, hmax⟩
          · rw [hE]
            obtain ⟨hcok, hcmax⟩ := depth_sound env fuel concept (depth + 1) maxD maxR
              acc.2 child v₂ hlt hcall
            refine ⟨insertChild_depthOkC concept child (depth + 1) hcok acc.1 hok, ?_⟩
            calc (acc.1.insertChild concept child).calculateMaxDepthC ≤
                max acc.1.calculateMaxDepthC child.calculateMaxDepth :=
                  insertChild_maxDepthC_le concept child acc.1
              _ ≤ maxD := max_le hmax hcmax
          · rw [hE]; exact ⟨hok, hmax⟩

/-- When every fetch in the environment finds a page, every call
restores the shared visited set to its pre-call state. -/
theorem visited_restored (env : Env) (henv : ∀ s, (env s).isFound = true) :
    ∀ (fuel : Nat) (term : String) (depth maxD maxR : Nat) (V : Finset String),
      (analyzeTermRecursive env fuel term depth maxD maxR V).2 = V
  | 0, term, depth, maxD, maxR, V => by rw [atr_zero]
  | fuel + 1, term, depth, maxD, maxR, V => by
    by_cases hg : term ∈ V ∨ maxD ≤ depth
    · rw [atr_guard env fuel maxR hg]
    · cases he : env term with
      | fetchError msg =>
        have := henv term
        rw [he] at this
        exact absurd this (by simp [FetchOutcome.isFound])
      | pageMissing =>
        have := henv term
        rw [he] at this
        exact absurd this (by simp [FetchOutcome.isFound])
      | pageFound ps rel =>
        rw [atr_found env fuel maxR hg he]
        have hloop := foldl_induction
          (fun acc : Children × Finset String => acc.2 = insert term V)
          (childStep env fuel depth maxD maxR term)
          ((if depth < maxD then rel else []).take maxR)
          (Children.nil, insert term V)
          rfl
          ?_
        · simp only [hloop]
          exact Finset.erase_insert (not_or.1 hg).1
        · intro acc concept _ hacc
          rcases childStep_cases env fuel depth maxD maxR term acc concept with
            hE | ⟨_, _, ⟨child, v₂, hcall, hE⟩ | ⟨msg, v₂, hcall, hE⟩⟩
          · rw [hE]; exact hacc
          · rw [hE]
            have := visited_restored env henv fuel concept (depth + 1) maxD maxR acc.2
            rw [hcall] at this
            simp only [] at this
            rw [this, hacc]
          · rw [hE]
            have := visited_restored env henv fuel concept (depth + 1) maxD maxR acc.2
            rw [hcall] at this
            simp only [] at this
            rw [this, hacc]

/-! ## Claims C1-C3: the recursive engine -/

/-- C1 counterexample.  The claim says the shared visited set is
restored to its pre-call state on every return path, including a page
fetch error.  It is not: a call on "a" (whose fetch errors,
`lib.rs:119`'s `?`) returns with "a" still in the set, and a call on
"z" (whose page is missing, the early return at `lib.rs:123-130`) also
returns with "z" still in the set — `visited.remove` at `lib.rs:173`
runs only on the normal completion path. -/
theorem claim_C1_counterexample :
    (analyzeTermRecursive envErr 2 ("a") 0 2 5 ∅).2 ≠ (∅ : Finset String) ∧
    (analyzeTermRecursive envErr 2 ("z") 0 2 5 ∅).2 ≠ (∅ : Finset String) := by
  decide

/-- C1 (amended).  The backtracking removal restores the visited set to
its exact pre-call state whenever every fetch in the call's subtree
finds a page; a call whose fetch errors or finds no page returns with
its term left in the set (and that pollution persists in the ancestors'
shared set). -/
theorem claim_C1_visited_restore (env : Env) (henv : ∀ s, (env s).isFound = true)
    (fuel : Nat) (term : String) (depth maxD maxR : Nat) (V : Finset String) :
    (analyzeTermRecursive env fuel term depth maxD maxR V).2 = V :=
  visited_restored env henv fuel term depth maxD maxR V

/-- C1 witness: a concrete all-successful run restores the empty set. -/
theorem claim_C1_witness :
    (analyzeTermRecursive envAllFound 3 ("a") 0 3 5 ∅).2 = ∅ :=
  claim_C1_visited_restore envAllFound
    (fun s => by by_cases h : s = "a" <;> simp [envAllFound, h, FetchOutcome.isFound])
    3 ("a") 0 3 5 ∅

/-- C2.  In every tree freshly computed by `analyze_recursive`, no term
repeats along a single root-to-leaf path; and the same term may appear
in two disjoint sibling subtrees (in the diamond environment, "d" is a
node under both "b" and "c"). -/
theorem claim_C2_path_cycle_freedom :
    (∀ (env : Env) (term : String) (maxD maxR : Nat) (r : AnalysisResult),
      analyzeRecursive env term maxD maxR = .ok r →
      ∀ p ∈ r.tree.paths, p.Nodup) ∧
    (["a", "b", "d"] ∈ c2Paths ∧ ["a", "c", "d"] ∈ c2Paths) := by
  constructor
  · intro env term maxD maxR r heq
    rcases hcall : analyzeTermRecursive env maxD term 0 maxD maxR ∅ with ⟨res, v⟩
    unfold analyzeRecursive at heq
    rw [hcall] at heq
    cases res with
    | error msg => simp at heq
    | ok t =>
      simp only [Except.ok.injEq] at heq
      intro p hp
      have : r.tree = t := by rw [← heq]
      rw [this] at hp
      exact (paths_sound env maxD term 0 maxD maxR ∅ t v hcall p hp).1
  · exact ⟨by decide, by decide⟩

/-- C2 witness: the universal half applied to the concrete diamond
run. -/
theorem claim_C2_witness : (["a", "b", "d"] : List String).Nodup :=
  claim_C2_path_cycle_freedom.1 envSibling ("a") 3 5 c2Result rfl
    ["a", "b", "d"] (by decide)

/-- C3.  Every successful `analyze_recursive` run has
`max_depth_reached ≤ max_depth`, and every node's `depth` field equals
its distance from the root (`depthOk _ 0`). -/
theorem claim_C3_depth_bounds (env : Env) (term : String) (maxD maxR : Nat)
    (r : AnalysisResult) (heq : analyzeRecursive env term maxD maxR = .ok r) :
    r.max_depth_reached ≤ maxD ∧ r.tree.depthOk 0 = true := by
  rcases hcall : analyzeTermRecursive env maxD term 0 maxD maxR ∅ with ⟨res, v⟩
  unfold analyzeRecursive at heq
  rw [hcall] at heq
  cases res with
  | error msg => simp at heq
  | ok t =>
    simp only [Except.ok.injEq] at heq
    obtain ⟨hok, hmax⟩ := depth_sound env maxD term 0 maxD maxR ∅ t v (Nat.zero_le maxD) hcall
    have htree : r.tree = t := by rw [← heq]
    have hreach : r.max_depth_reached = t.calculateMaxDepth := by rw [← heq]
    rw [htree, hreach]
    exact ⟨hmax, hok⟩

/-- C3 witness: the concrete diamond run. -/
theorem claim_C3_witness :
    c3Result.max_depth_reached ≤ 3 ∧ c3Result.tree.depthOk 0 = true :=
  claim_C3_depth_bounds envSibling ("a") 3 5 c3Result rfl

/-! ## Claim C4: category selection -/

theorem maxByKeyLast_eq_foldl (l : List (Category × Nat)) :
    maxByKeyLast l = l.foldl maxStep none := rfl

/-- Whatever `max_by_key` returns is an element whose key dominates the
whole list (and the initial accumulator). -/
theorem maxFold_spec :
    ∀ (l : List (Category × Nat)) (acc : Option (Category × Nat)) (x : Category × Nat),
      l.foldl maxStep acc = some x →
      (acc = some x ∨ x ∈ l) ∧ (∀ y ∈ l, y.2 ≤ x.2) ∧
        (∀ b, acc = some b → b.2 ≤ x.2)
  | [], acc, x, h => by
    refine ⟨.inl h, by simp, ?_⟩
    intro b hb
    rw [hb] at h
    obtain rfl : b = x := by injection h
    exact le_refl _
  | a :: l, acc, x, h => by
    rw [List.foldl_cons] at h
    obtain ⟨h1, h2, h3⟩ := maxFold_spec l (maxStep acc a) x h
    have hstep : ∀ c, maxStep acc a = some c → a.2 ≤ c.2 ∧ (c = a ∨ acc = some c) := by
      intro c hc
      cases hacc : acc with
      | none =>
        rw [hacc] at hc
        obtain rfl : a = c := by injection hc
        exact ⟨le_refl _, .inl rfl⟩
      | some b =>
        rw [hacc] at hc
        simp only [maxStep] at hc
        by_cases hba : b.2 ≤ a.2
        · rw [if_pos hba] at hc
          obtain rfl : a = c := by injection hc
          exact ⟨le_refl _, .inl rfl⟩
        · rw [if_neg hba] at hc
          obtain rfl : b = c := by injection hc
          exact ⟨le_of_not_le hba, .inr rfl⟩
    have hsome : ∃ c, maxStep acc a = some c := by
      cases hacc : acc with
      | none => exact ⟨a, rfl⟩
      | some b =>
        simp only [maxStep]
        by_cases hba : b.2 ≤ a.2
        · exact ⟨a, if_pos hba⟩
        · exact ⟨b, if_neg hba⟩
    obtain ⟨c, hc⟩ := hsome
    have hcx : c.2 ≤ x.2 := h3 c hc
    obtain ⟨hac, hca⟩ := hstep c hc
    refine ⟨?_, ?_, ?_⟩
    · rcases h1 with h1 | h1
      · rw [hc] at h1
        obtain rfl : c = x := by injection h1
        rcases hca with rfl | hacc
        · exact .inr (List.mem_cons_self _ _)
        · exact .inl hacc
      · exact .inr (List.mem_cons_of_mem _ h1)
    · intro y hy
      rcases List.mem_cons.1 hy with rfl | hy
      · exact le_trans hac hcx
      · exact h2 y hy
    · intro b hb
      cases hacc : acc with
      | none => rw [hacc] at hb; cases hb
      | some b' =>
        rw [hacc] at hb hc
        have hbb : b = b' := by injection hb with h; exact h.symm
        subst hbb
        simp only [maxStep] at hc
        by_cases hba : b.2 ≤ a.2
        · rw [if_pos hba] at hc
          obtain rfl : a = c := by injection hc
          exact le_trans hba hcx
        · rw [if_neg hba] at hc
          obtain rfl : b = c := by injection hc
          exact hcx

/-- A strict maximum, once in the accumulator, survives the fold. -/
theorem maxFold_keeps :
    ∀ (l : List (Category × Nat)) (c : Category) (n : Nat),
      (∀ x ∈ l, x = (c, n) ∨ x.2 < n) →
      l.foldl maxStep (some (c, n)) = some (c, n)
  | [], _, _, _ => rfl
  | a :: l, c, n, hall => by
    rw [List.foldl_cons]
    have hstep : maxStep (some (c, n)) a = some (c, n) := by
      rcases hall a (List.mem_cons_self _ _) with rfl | hlt
      · simp [maxStep]
      · simp only [maxStep]
        rw [if_neg (not_le.2 hlt)]
    rw [hstep]
    exact maxFold_keeps l c n (fun x hx => hall x (List.mem_cons_of_mem _ hx))

/-- A strict maximum present in the list is what the fold returns. -/
theorem maxFold_reaches :
    ∀ (l : List (Category × Nat)) (acc : Option (Category × Nat)) (c : Category) (n : Nat),
      (c, n) ∈ l → (∀ x ∈ l, x = (c, n) ∨ x.2 < n) →
      (acc = none ∨ ∃ b, acc = some b ∧ (b.2 < n ∨ b = (c, n))) →
      l.foldl maxStep acc = some (c, n)
  | [], _, _, _, hmem, _, _ => absurd hmem (List.not_mem_nil _)
  | a :: l, acc, c, n, hmem, hall, hacc => by
    rw [List.foldl_cons]
    by_cases ha : a = (c, n)
    · have hstep : maxStep acc a = some (c, n) := by
        rw [ha]
        rcases hacc with rfl | ⟨b, rfl, hb⟩
        · rfl
        · simp only [maxStep]
          rcases hb with hb | rfl
          · rw [if_pos (le_of_lt hb)]
          · rw [if_pos (le_refl _)]
      rw [hstep]
      exact maxFold_keeps l c n (fun x hx => hall x (List.mem_cons_of_mem _ hx))
    · have haLt : a.2 < n := by
        rcases hall a (List.mem_cons_self _ _) with h | h
        · exact absurd h ha
        · exact h
      have hmem' : (c, n) ∈ l := by
        rcases List.mem_cons.1 hmem with h | h
        · exact absurd h.symm ha
        · exact h
      refine maxFold_reaches l (maxStep acc a) c n hmem'
        (fun x hx => hall x (List.mem_cons_of_mem _ hx)) ?_
      rcases hacc with rfl | ⟨b, rfl, hb⟩
      · exact .inr ⟨a, rfl, .inl haLt⟩
      · simp only [maxStep]
        rcases hb with hb | rfl
        · by_cases hba : b.2 ≤ a.2
          · rw [if_pos hba]
            exact .inr ⟨a, rfl, .inl haLt⟩
          · rw [if_neg hba]
            exact .inr ⟨b, rfl, .inl hb⟩
        · rw [if_neg (not_le.2 haLt)]
          exact .inr ⟨(c, n), rfl, .inr rfl⟩

/-- C4 counterexample.  On the text "beam force" exactly the Structural
and Mechanical groups score (once each) — a tie.  The claimed rule
(first group of the fixed scan order, by strict greater-than) picks
Structural, but `categorize_text` folds `max_by_key` over the score
map's unspecified iteration order and keeps the *last* maximum: under
the iteration order that lists Structural first it answers Mechanical,
and under the reversed order it answers Structural — so the result is
neither the claimed tie-break nor a deterministic function of the
text. -/
theorem claim_C4_counterexample :
    scoresList ("beam force") = [(Category.Structural, 1), (Category.Mechanical, 1)] ∧
    categorizeTextWith [(Category.Structural, 1), (Category.Mechanical, 1)] =
      Category.Mechanical ∧
    categorizeTextWith [(Category.Mechanical, 1), (Category.Structural, 1)] =
      Category.Structural ∧
    specCategorizeText ("beam force") = Category.Structural := by
  refine ⟨by decide, by decide, by decide, by decide⟩

/-- C4 (amended).  For every iteration order of the score map: if no
group matches, the result is `Other "General"`; the winner always
carries a maximal match count; and a strictly maximal group wins
regardless of the iteration order (so the selection is deterministic
exactly when the maximum is unique — ties are resolved by the map's
unspecified iteration order, last tied entry winning, not by the fixed
enumeration order). -/
theorem claim_C4_category_selection (text : String) (iter : List (Category × Nat))
    (hperm : iter.Perm (scoresList text)) :
    (scoresList text = [] → categorizeTextWith iter = .Other ("General")) ∧
    (∀ c n, maxByKeyLast iter = some (c, n) →
      (c, n) ∈ scoresList text ∧ ∀ x ∈ scoresList text, x.2 ≤ n) ∧
    (∀ c n, (c, n) ∈ scoresList text →
      (∀ x ∈ scoresList text, x ≠ (c, n) → x.2 < n) →
      categorizeTextWith iter = c) := by
  refine ⟨?_, ?_, ?_⟩
  · intro hnil
    rw [hnil] at hperm
    rw [List.Perm.eq_nil hperm]
    rfl
  · intro c n hmax
    rw [maxByKeyLast_eq_foldl] at hmax
    obtain ⟨h1, h2, _⟩ := maxFold_spec iter none (c, n) hmax
    have hmem : (c, n) ∈ iter := by
      rcases h1 with h1 | h1
      · cases h1
      · exact h1
    exact ⟨hperm.mem_iff.1 hmem, fun x hx => h2 x (hperm.mem_iff.2 hx)⟩
  · intro c n hmem hstrict
    have hmem' : (c, n) ∈ iter := hperm.mem_iff.2 hmem
    have hall : ∀ x ∈ iter, x = (c, n) ∨ x.2 < n := by
      intro x hx
      by_cases hxe : x = (c, n)
      · exact .inl hxe
      · exact .inr (hstrict x (hperm.mem_iff.1 hx) hxe)
    have : maxByKeyLast iter = some (c, n) := by
      rw [maxByKeyLast_eq_foldl]
      exact maxFold_reaches iter none c n hmem' hall (.inl rfl)
    simp [categorizeTextWith, this]

/-- C4 witness: on "the gear gear torque" only the Mechanical group
scores (3 matches), a strict maximum, and the winner is Mechanical. -/
theorem claim_C4_witness :
    categorizeTextWith [(Category.Mechanical, 3)] = Category.Mechanical :=
  (claim_C4_category_selection ("the gear gear torque") [(Category.Mechanical, 3)]
    (by decide)).2.2 Category.Mechanical 3 (by decide) (by decide)

/-! ## Claim C6: deduplication -/

theorem similarityScore_comm (a b : String) :
    similarityScore a b = similarityScore b a := by
  simp only [similarityScore, Finset.union_comm, Finset.inter_comm]

/-- The greedy keep-walk of `deduplicate_and_rank` preserves pairwise
dissimilarity of the kept list. -/
theorem greedyKeep_pairwise :
    ∀ (l acc : List EngineeringPrinciple),
      acc.Pairwise (fun a b => similarityScore a.description b.description ≤ 8 / 10) →
      (l.foldl (fun acc p =>
        if acc.any (fun existing => 8 / 10 < similarityScore p.description existing.description)
        then acc else acc ++ [p]) acc).Pairwise
        (fun a b => similarityScore a.description b.description ≤ 8 / 10)
  | [], _, hacc => hacc
  | p :: l, acc, hacc => by
    rw [List.foldl_cons]
    refine greedyKeep_pairwise l _ ?_
    by_cases hdup : acc.any
      (fun existing => 8 / 10 < similarityScore p.description existing.description)
    · rw [if_pos hdup]; exact hacc
    · rw [if_neg hdup]
      rw [List.any_eq_true] at hdup
      push_neg at hdup
      refine List.pairwise_append.2 ⟨hacc, List.pairwise_singleton _ _, ?_⟩
      intro a ha b hb
      rw [List.mem_singleton] at hb
      subst hb
      have h2 : ¬(8 / 10 < similarityScore b.description a.description) := by
        simpa using hdup a ha
      rw [similarityScore_comm]
      exact not_lt.1 h2

/-- The greedy walk of `deduplicate_and_rank` leaves no kept pair with
description similarity above 0.8. -/
theorem deduplicateAndRank_pairwise (principles : List EngineeringPrinciple) :
    (deduplicateAndRank principles).Pairwise
      (fun a b => similarityScore a.description b.description ≤ 8 / 10) := by
  unfold deduplicateAndRank
  exact List.Pairwise.sublist (List.take_sublist _ _)
    (greedyKeep_pairwise _ _ List.Pairwise.nil)

/-- C6 (amended).  In the pattern classifier's `analyze_page` output no
two surviving principles have description word-set Jaccard similarity
above 0.8 (the greedy dedup checks every candidate against every kept
one); the merged `get_or_analyze_principles` list does **not** enjoy
this (see the counterexample): its dedup only compares incoming regex
principles against the combined list, never semantic principles against
each other. -/
theorem claim_C6_dedup_jaccard (ord : String → List (Category × Nat))
    (page : WikipediaPage) :
    (analyzePage ord page).Pairwise
      (fun a b => similarityScore a.description b.description ≤ 8 / 10) :=
  deduplicateAndRank_pairwise _

/-! ## Claim C7: confidence -/

theorem ratMin_one_eq_clamp (x : ℚ) (hx : 0 ≤ x) :
    ratMin x 1 = ratMax 0 (ratMin 1 x) := by
  by_cases hx1 : x ≤ 1
  · rw [ratMin, if_pos hx1, ratMin]
    by_cases h1x : (1 : ℚ) ≤ x
    · rw [if_pos h1x, ratMax, if_pos (by norm_num : (0 : ℚ) ≤ 1)]
      exact le_antisymm hx1 h1x
    · rw [if_neg h1x, ratMax, if_pos hx]
  · rw [ratMin, if_neg hx1, ratMin,
      if_pos (le_of_lt (not_le.1 hx1)), ratMax, if_pos (by norm_num : (0 : ℚ) ≤ 1)]

/-- The code's nested bonus-and-cap computation equals the claimed
linear formula with a [0, 1] clamp, for any pattern group. -/
theorem calcConf_case (text : String) (g : List (List String)) :
    ratMin (if hasMathPattern text = true then
        (if 50 < byteLen text ∧ byteLen text < 300 then
          (principleMatchCount text : ℚ) * (2 / 10) + (groupCount g text : ℚ) * (15 / 100) + 1 / 10
         else (principleMatchCount text : ℚ) * (2 / 10) + (groupCount g text : ℚ) * (15 / 100)) + 2 / 10
      else
        (if 50 < byteLen text ∧ byteLen text < 300 then
          (principleMatchCount text : ℚ) * (2 / 10) + (groupCount g text : ℚ) * (15 / 100) + 1 / 10
         else (principleMatchCount text : ℚ) * (2 / 10) + (groupCount g text : ℚ) * (15 / 100))) 1 =
    ratMax 0 (ratMin 1
      ((principleMatchCount text : ℚ) * (2 / 10) + (groupCount g text : ℚ) * (15 / 100) +
       (if 50 < byteLen text ∧ byteLen text < 300 then (1 : ℚ) / 10 else 0) +
       (if hasMathPattern text = true then (2 : ℚ) / 10 else 0))) := by
  split_ifs <;> (try simp only [add_zero]) <;>
    exact ratMin_one_eq_clamp _ (by positivity)

theorem ratMin_one_nonneg (x : ℚ) (hx : 0 ≤ x) : 0 ≤ ratMin x 1 := by
  rw [ratMin]
  split_ifs
  · exact hx
  · norm_num

theorem ratMin_one_le_one (x : ℚ) : ratMin x 1 ≤ 1 := by
  rw [ratMin]
  split_ifs with h
  · exact h
  · exact le_refl 1

theorem calculateConfidence_nonneg (text : String) (category : Category) :
    0 ≤ calculateConfidence text category := by
  cases category <;>
    simp only [calculateConfidence] <;>
    first
      | (split_ifs <;> exact ratMin_one_nonneg _ (by positivity))
      | norm_num

theorem calculateConfidence_le_one (text : String) (category : Category) :
    calculateConfidence text category ≤ 1 := by
  cases category <;>
    simp only [calculateConfidence] <;>
    first
      | (split_ifs <;> exact ratMin_one_le_one _)
      | norm_num

/-- C7.  `calculate_confidence` computes exactly the claimed formula
(with the `Other` short-circuit), and every principle the classifier
keeps carries that confidence, at least 0.3 and within [0, 1]. -/
theorem claim_C7_confidence_formula :
    (∀ (text : String) (category : Category),
      calculateConfidence text category = specConfidence text category) ∧
    (∀ (ord : String → List (Category × Nat)) (page : WikipediaPage)
       (sentence : String) (p : EngineeringPrinciple),
       extractPrincipleFromSentence ord page sentence = some p →
       3 / 10 ≤ p.confidence ∧ 0 ≤ p.confidence ∧ p.confidence ≤ 1 ∧
       p.confidence = specConfidence sentence (categorizeTextWith (ord sentence)) ∧
       (∀ lbl, categorizeTextWith (ord sentence) = .Other lbl →
         p.confidence = 3 / 10)) := by
  have hspec : ∀ (text : String) (category : Category),
      calculateConfidence text category = specConfidence text category := by
    intro text category
    cases category
    case Other lbl => rfl
    case Structural => exact calcConf_case text structuralPatterns
    case Mechanical => exact calcConf_case text mechanicalPatterns
    case Electrical => exact calcConf_case text electricalPatterns
    case Thermal => exact calcConf_case text thermalPatterns
    case Chemical => exact calcConf_case text chemicalPatterns
    case Material => exact calcConf_case text materialPatterns
    case System => exact calcConf_case text systemPatterns
    case Process => exact calcConf_case text processPatterns
    case Design => exact calcConf_case text designPatterns
  refine ⟨hspec, ?_⟩
  intro ord page sentence p hsome
  simp only [extractPrincipleFromSentence] at hsome
  by_cases hpi : principleMatchCount sentence = 0
  · rw [if_pos hpi] at hsome
    cases hsome
  · rw [if_neg hpi] at hsome
    by_cases hconf :
        calculateConfidence sentence (categorizeTextWith (ord sentence)) < 3 / 10
    · rw [if_pos hconf] at hsome
      cases hsome
    · rw [if_neg hconf] at hsome
      have hp : p.confidence =
          calculateConfidence sentence (categorizeTextWith (ord sentence)) := by
        cases hsome
        rfl
      refine ⟨?_, ?_, ?_, ?_, ?_⟩
      · rw [hp]; exact not_lt.1 hconf
      · rw [hp]; exact calculateConfidence_nonneg _ _
      · rw [hp]; exact calculateConfidence_le_one _ _
      · rw [hp]; exact hspec _ _
      · intro lbl hlbl
        rw [hp, hlbl]
        rfl

/-! ## Concrete evaluations involving rational arithmetic

Core marks the `Rat` arithmetic operations `@[irreducible]`; deciding
the concrete score computations below needs them unfolded. -/

attribute [local semireducible] Rat.add Rat.mul Rat.inv Rat.sub

/-! ## Claim C5: the "uav" decomposition -/

/-- C5 counterexample.  The claim says `decompose("uav", 2)` returns
components including one named "motor" (Mechanical) and one named
"battery" (Electrical).  It does not: the components are the seven
registered *subsystems* of "uav"; no component is named "motor" or
"battery". -/
theorem claim_C5_counterexample :
    ((decomposeConcept ("uav") 2).components.all
      (fun c => c.name != "motor" && c.name != "battery")) = true := by
  decide

/-- C5 (amended).  `decompose("uav", 2)` returns the seven registered
subsystems (sorted by importance, "flight controller" first at 0.934,
the rest at the 0.5 base), all with category System; "motor" appears in
the sub-components of "propulsion system" and "battery" in those of
"power system"; and the relationships do include the registered
battery --Requires--> uav edge with confidence 0.98. -/
theorem claim_C5_uav_decomposition :
    (decomposeConcept ("uav") 2).components.map (·.name) =
      ["flight controller", "propulsion system", "power system", "communication system",
       "navigation system", "structural frame", "payload system"] ∧
    (decomposeConcept ("uav") 2).components.map (·.category) =
      [.System, .System, .System, .System, .System, .System, .System] ∧
    (decomposeConcept ("uav") 2).components.map (·.importance) =
      [467 / 500, 1 / 2, 1 / 2, 1 / 2, 1 / 2, 1 / 2, 1 / 2] ∧
    ("motor" ∈ ((((decomposeConcept ("uav") 2).components.get? 1).map
      (·.sub_components)).getD [])) ∧
    ("battery" ∈ ((((decomposeConcept ("uav") 2).components.get? 2).map
      (·.sub_components)).getD [])) ∧
    ({ component := "battery", relation_type := .Requires, confidence := 49 / 50 } ∈
      (decomposeConcept ("uav") 2).relationships) := by
  refine ⟨by decide, by decide, by decide, by decide, by decide, by decide⟩

/-- C6 counterexample.  On a page titled "uav" the merged
classifier/decomposer list keeps both the "propulsion system" and the
"power system" semantic principles, whose templated descriptions have
word-set Jaccard similarity 11/13 > 0.8 — so the claim fails for the
merged `get_or_analyze_principles` output. -/
theorem claim_C6_counterexample :
    ((getOrAnalyzePrinciples canonOrd page6).get? 2).isSome = true ∧
    (8 : ℚ) / 10 < similarityScore
      ((((getOrAnalyzePrinciples canonOrd page6).get? 1).map (·.description)).getD (""))
      ((((getOrAnalyzePrinciples canonOrd page6).get? 2).map (·.description)).getD ("")) := by
  refine ⟨by decide, by decide⟩

/-- C7 witness: a concrete kept sentence (confidence 0.7, category
Mechanical). -/
theorem claim_C7_witness :
    3 / 10 ≤ principle7.confidence ∧ 0 ≤ principle7.confidence ∧
    principle7.confidence ≤ 1 ∧
    principle7.confidence =
      specConfidence sentence7 (categorizeTextWith (canonOrd sentence7)) :=
  have h := claim_C7_confidence_formula.2 canonOrd pageW sentence7 principle7 (by decide)
  ⟨h.1, h.2.1, h.2.2.1, h.2.2.2.1⟩

end WikiEngine